import Mathlib

/-!
Shallow embedding of the Texas Hold'em engine of the Poker-Webapp repository.

Sources embedded here:
* `src/server/game.js` — `Player` (in particular `Player.bet`), `HandState`,
  `PotManager.collectBets`;
* the hand evaluator file (`evaluateHand`, `getCombinations`,
  `evaluateFiveCards`);
* the server file (`handlePlayerAction`, the blind-posting part of
  `startHand`, the street-advancing part of `processBettingRound`, and the
  settlement part of `endHand`).

JavaScript numbers that hold chip amounts are embedded as `Int` (the engine
only ever produces integers there); card-rank weights are `Nat`.  JavaScript
code that would throw a `TypeError` (indexing an `undefined` array slot and
dereferencing it) is embedded as an `Option`-valued function returning `none`
at exactly those points.
-/

/-! ### Cards -/

/-- The four suits `'S' | 'H' | 'D' | 'C'` of `game.js`. -/
inductive Suit where
  | S | H | D | C
deriving DecidableEq, Repr

/-- The thirteen ranks `'A','2',…,'10','J','Q','K'` of `game.js`. -/
inductive Rank where
  | A | K | Q | J | R10 | R9 | R8 | R7 | R6 | R5 | R4 | R3 | R2
deriving DecidableEq, Repr

/-- A card `{ suit, rank }`. -/
structure Card where
  rank : Rank
  suit : Suit
deriving DecidableEq, Repr

instance : Inhabited Card := ⟨⟨Rank.A, Suit.S⟩⟩

/-- The `rankOrder` table of the evaluator:
`'A':14,'K':13,'Q':12,'J':11,'10':10,…,'2':2`. -/
def rankOrder : Rank → Nat
  | .A => 14 | .K => 13 | .Q => 12 | .J => 11 | .R10 => 10
  | .R9 => 9 | .R8 => 8 | .R7 => 7 | .R6 => 6 | .R5 => 5
  | .R4 => 4 | .R3 => 3 | .R2 => 2

/-! ### Hand evaluator (`evaluateFiveCards`, `getCombinations`, `evaluateHand`) -/

/-- Result object `{ rank, score, cards }` returned by the evaluator. -/
structure HandEval where
  rankName : String
  score : Nat
  cards : List Card
deriving DecidableEq, Repr

/-- The straight scan of `evaluateFiveCards`: on the descending list of
distinct rank values, find the first (hence highest) window of five
consecutive values (`uniqueValues[i+j] === uniqueValues[i] - j` for
`j = 1..4`); over `Nat` the test `u[i+j] = u[i] - j` is written additively as
`u[i+j] + j = u[i]`, which is equivalent for non-negative entries. -/
def findStraightHigh : List Nat → Option Nat
  | a :: b :: c :: d :: e :: rest =>
    if b + 1 == a && c + 2 == a && d + 3 == a && e + 4 == a then some a
    else findStraightHigh (b :: c :: d :: e :: rest)
  | _ => none

/-- The positional loop `for i in 0..4: score += values[i] * 100^(4-i)` used
by the Flush and High Card branches of `evaluateFiveCards`. -/
def kickerScore (l : List Nat) : Nat :=
  (List.range 5).foldl (fun acc i => acc + l.getD i 0 * 100 ^ (4 - i)) 0

/-- Branch logic of `evaluateFiveCards` after the sorting prefix: it depends
only on the descending list of rank values and on the flush flag.
`uniqueValues` is `[...new Set(sortedValues)].sort(desc)`; the JavaScript
`rankCounts` object is represented by counting occurrences in
`sortedValues` (the same multiset as `ranks`), and key lookups
(`Object.keys(rankCounts).find/filter`) are performed over `uniqueValues` —
every `find` in the source has a unique match, and every `filter` result is
re-sorted by the source, so the enumeration order of the keys is
irrelevant. -/
def evalCore (sortedValues : List Nat) (isFlush : Bool) : String × Nat :=
  let uniqueValues := (sortedValues.dedup).insertionSort (· ≥ ·)
  let straightHigh? := findStraightHigh uniqueValues
  let wheel := straightHigh?.isNone && uniqueValues.contains 14 &&
    uniqueValues.contains 5 && uniqueValues.contains 4 &&
    uniqueValues.contains 3 && uniqueValues.contains 2
  let isStraight := straightHigh?.isSome || wheel
  let straightHigh : Nat :=
    match straightHigh? with
    | some h => h
    | none => if wheel then 5 else 0
  let count := fun v => sortedValues.count v
  let counts := (uniqueValues.map count).insertionSort (· ≥ ·)
  if isFlush && isStraight && straightHigh == 14 then
    ("Royal Flush", 9000000 + straightHigh)
  else if isFlush && isStraight then
    ("Straight Flush", 8000000 + straightHigh)
  else if counts.getD 0 0 == 4 then
    let fourKind := ((uniqueValues.find? (fun v => count v == 4)).getD 0)
    let kicker := ((uniqueValues.find? (fun v => count v == 1)).getD 0)
    ("Four of a Kind", 7000000 + fourKind * 100 + kicker)
  else if counts.getD 0 0 == 3 && counts.getD 1 0 == 2 then
    let threeKind := ((uniqueValues.find? (fun v => count v == 3)).getD 0)
    let pair := ((uniqueValues.find? (fun v => count v == 2)).getD 0)
    ("Full House", 6000000 + threeKind * 100 + pair)
  else if isFlush then
    ("Flush", 5000000 + kickerScore sortedValues)
  else if isStraight then
    ("Straight", 4000000 + straightHigh)
  else if counts.getD 0 0 == 3 then
    let threeKind := ((uniqueValues.find? (fun v => count v == 3)).getD 0)
    let kickers := (uniqueValues.filter (fun v => count v == 1)).insertionSort (· ≥ ·)
    ("Three of a Kind",
      3000000 + threeKind * 10000 + kickers.getD 0 0 * 100 + kickers.getD 1 0)
  else if counts.getD 0 0 == 2 && counts.getD 1 0 == 2 then
    let pairs := (uniqueValues.filter (fun v => count v == 2)).insertionSort (· ≥ ·)
    let kicker := ((uniqueValues.find? (fun v => count v == 1)).getD 0)
    ("Two Pair",
      2000000 + pairs.getD 0 0 * 10000 + pairs.getD 1 0 * 100 + kicker)
  else if counts.getD 0 0 == 2 then
    let pair := ((uniqueValues.find? (fun v => count v == 2)).getD 0)
    let kickers := (uniqueValues.filter (fun v => count v == 1)).insertionSort (· ≥ ·)
    ("One Pair",
      1000000 + pair * 10000 + kickers.getD 0 0 * 100 + kickers.getD 1 0 * 10 +
        kickers.getD 2 0)
  else
    ("High Card", kickerScore sortedValues)

/-- The sorting prefix of `evaluateFiveCards`:
`[...cards].sort((a,b) => rankOrder[b.rank] - rankOrder[a.rank])`, realised
by `insertionSort` — any correct sort produces the same descending rank
values, and ties between equal ranks only affect the returned `cards`
field, never the score. -/
def sortedByRank (cards : List Card) : List Card :=
  cards.insertionSort (fun a b => rankOrder a.rank ≥ rankOrder b.rank)

/-- The flush flag `suits.every(suit => suit === suits[0])` of
`evaluateFiveCards`. -/
def flushOf (cards : List Card) : Bool :=
  let suits := (sortedByRank cards).map (fun c => c.suit)
  suits.all (fun s => s == suits.headD Suit.S)

/-- The `sortedValues` list of `evaluateFiveCards`: the rank values of the
sorted cards, sorted descending. -/
def sortedValuesOf (cards : List Card) : List Nat :=
  (((sortedByRank cards).map (fun c => c.rank)).map rankOrder).insertionSort (· ≥ ·)

/-- `evaluateFiveCards(cards)`: sort the five cards by descending rank,
compute the flush flag and the descending rank values, then apply the
branch logic. -/
def evaluateFiveCards (cards : List Card) : HandEval :=
  let rs := evalCore (sortedValuesOf cards) (flushOf cards)
  { rankName := rs.1, score := rs.2, cards := sortedByRank cards }

/-- `getCombinations(arr, k)` of the evaluator: `k = 1` yields singletons;
`k = arr.length` yields `[arr]`; otherwise choose `arr[i]` as head and
combine with the combinations of `arr.slice(i+1)` — expressed recursively,
the head element either starts a combination or is skipped.  Every call in
the source has `1 ≤ k ≤ arr.length`. -/
def getCombinations : List Card → Nat → List (List Card)
  | arr, 1 => arr.map (fun x => [x])
  | [], _ => []
  | x :: xs, k =>
    if (x :: xs).length == k then [x :: xs]
    else ((getCombinations xs (k - 1)).map (fun combo => x :: combo)) ++
      getCombinations xs k

/-- `evaluateHand(sevenCards)`: an explicit `Invalid` result for fewer than
five cards, otherwise the best `evaluateFiveCards` result over all 5-card
combinations (`bestHand` starts as `null`, i.e. `none`, and is replaced
whenever a combination scores strictly above the best score so far,
starting from `0`). -/
def evaluateHand (sevenCards : List Card) : Option HandEval :=
  if sevenCards.length < 5 then
    some { rankName := "Invalid", score := 0, cards := [] }
  else
    let combinations := getCombinations sevenCards 5
    (combinations.foldl (fun acc combo =>
      let evaluation := evaluateFiveCards combo
      if evaluation.score > acc.2 then (some evaluation, evaluation.score)
      else acc) ((none : Option HandEval), 0)).1

/-! ### Player (`game.js`) -/

/-- Per-seat mutable state of `class Player` (the `hand` field and display
name are carried too; a `Bot` is a `Player` with `isBot = true`). -/
structure PlayerS where
  id : String
  name : String
  chips : Int
  hand : List Card
  currentBet : Int
  hasFolded : Bool
  isAllIn : Bool
  hasActed : Bool
  isBot : Bool
deriving DecidableEq, Repr

instance : Inhabited PlayerS :=
  ⟨{ id := "", name := "", chips := 0, hand := [], currentBet := 0,
     hasFolded := false, isAllIn := false, hasActed := false, isBot := false }⟩

/-- `new Player(id, name, chips = 1000)`. -/
def mkPlayer (id name : String) (chips : Int := 1000) : PlayerS :=
  { id := id, name := name, chips := chips, hand := [], currentBet := 0,
    hasFolded := false, isAllIn := false, hasActed := false, isBot := false }

/-- `Player.bet(amount)`: wager `min(amount, chips)`, move it from `chips`
to `currentBet`, set `isAllIn` when the chips hit zero, and return the
amount actually wagered. -/
def betP (p : PlayerS) (amount : Int) : PlayerS × Int :=
  let betAmount := min amount p.chips
  let chips' := p.chips - betAmount
  ({ p with
      chips := chips',
      currentBet := p.currentBet + betAmount,
      isAllIn := if chips' = 0 then true else p.isAllIn }, betAmount)

/-- `Player.fold()`. -/
def foldP (p : PlayerS) : PlayerS := { p with hasFolded := true }

/-- `Player.resetForNewBettingRound()`. -/
def resetForNewBettingRound (p : PlayerS) : PlayerS :=
  { p with currentBet := 0, hasActed := false }

/-! ### PotManager (`game.js`) -/

/-- One pot `{ amount, contributors }`; the contributor `Set` is embedded as
an insertion-ordered duplicate-free list of player ids. -/
structure Pot where
  amount : Int
  contributors : List String
deriving DecidableEq, Repr

/-- `Set.prototype.add`: append the id unless already present. -/
def insertContributor (s : List String) (id : String) : List String :=
  if id ∈ s then s else s ++ [id]

/-- One pass of the `players.forEach` body inside `collectBets`: every
player with `currentBet > 0` moves `min(currentBet, minBet)` out of their
`currentBet`.  Returns the updated players, the total amount moved, the ids
added to the current pot (in order), and the `contributors` array the source
builds (the post-pass snapshots of the contributing players, used for the
all-in capping check). -/
def processPass (minBet : Int) : List PlayerS → List PlayerS × Int × List String × List PlayerS
  | [] => ([], 0, [], [])
  | p :: rest =>
    let out := processPass minBet rest
    if p.currentBet > 0 then
      let contribution := min p.currentBet minBet
      let p' := { p with currentBet := p.currentBet - contribution }
      (p' :: out.1, contribution + out.2.1, p.id :: out.2.2.1, p' :: out.2.2.2)
    else
      (p :: out.1, out.2.1, out.2.2.1, out.2.2.2)

/-- `Math.min(...)` over a list, seeded with its first element (the source
only applies it to the non-empty list of positive bets). -/
def minPos : List Int → Int
  | [] => 0
  | x :: xs => xs.foldl min x

/-- Add `amt` to the last pot and insert the given contributor ids there
(the source mutates `this.pots[this.pots.length - 1]`). -/
def addToLast (amt : Int) (ids : List String) : List Pot → List Pot
  | [] => []
  | [pot] => [{ amount := pot.amount + amt,
                contributors := ids.foldl insertContributor pot.contributors }]
  | pot :: rest => pot :: addToLast amt ids rest

/-- The `while (activeBets.some(p => p.currentBet > 0))` loop of
`collectBets`.  Because every player whose `currentBet` equals the minimum
positive bet drops to zero in each pass, at most `players.length` passes
run; `fuel` bounds the recursion structurally and is chosen large enough by
`collectBets`.  The `activeBets` alias of the source is the sub-array of
players that had `currentBet > 0` on entry; since bets never increase, a
player has a positive bet iff its alias does, so the condition and the
minimum are computed over `players` directly. -/
def collectBetsLoop : Nat → List PlayerS → List Pot → List PlayerS × List Pot
  | 0, players, pots => (players, pots)
  | fuel + 1, players, pots =>
    if players.any (fun p => p.currentBet > 0) then
      let minBet := minPos ((players.filter (fun p => p.currentBet > 0)).map
        (fun p => p.currentBet))
      let pots1 := if pots.isEmpty then [{ amount := 0, contributors := [] }] else pots
      let out := processPass minBet players
      let players' := out.1
      let pots2 := addToLast out.2.1 out.2.2.1 pots1
      let anyoneCapped := out.2.2.2.any (fun p => p.isAllIn && p.currentBet == 0)
      let pots3 :=
        if anyoneCapped && players'.any (fun p => p.currentBet > 0) then
          pots2 ++ [{ amount := 0, contributors := [] }]
        else pots2
      collectBetsLoop fuel players' pots3
    else (players, pots)

/-- `PotManager.collectBets(players)` acting on the pot list. -/
def collectBets (players : List PlayerS) (pots : List Pot) :
    List PlayerS × List Pot :=
  collectBetsLoop (players.length + 1) players pots

/-! ### HandState and room state (`game.js` / server file) -/

/-- One entry of `handState.winners`.  The uncontested-win entry of the
source has no `potIndex`/`isMainPot` fields; here they default to `0` and
`true`. -/
structure WinnerEntry where
  playerId : String
  playerName : String
  hand : Option HandEval
  share : Int
  potIndex : Nat
  isMainPot : Bool
deriving DecidableEq, Repr

/-- The fields of `class HandState` (the `blindsPosted` flag and the
per-street `roundBets` map are write-only in the source and omitted). -/
structure HandStateS where
  phase : String
  communityCards : List Card
  pot : Int
  currentBet : Int
  dealerIndex : Nat
  smallBlindIndex : Nat
  bigBlindIndex : Nat
  currentPlayerIndex : Nat
  winners : List WinnerEntry
deriving DecidableEq, Repr

/-- A room's mutable unit of state: the seat list, the `HandState`, the
`PotManager`'s pot list, and the deck. -/
structure GState where
  players : List PlayerS
  handState : HandStateS
  pots : List Pot
  deck : List Card
deriving DecidableEq, Repr

/-- A submitted action `{type: fold|check|call|raise, amount}`. -/
inductive ActionS where
  | fold
  | check
  | call
  | raise (amount : Int)
deriving DecidableEq, Repr

/-- Mutation of the first player whose `id` matches, in place — the
JavaScript pattern `const player = players.find(...)` followed by mutation
of the found object. -/
def updateById : List PlayerS → String → (PlayerS → PlayerS) → List PlayerS
  | [], _, _ => []
  | p :: rest, id, f =>
    if p.id = id then f p :: rest else p :: updateById rest id f

/-- `players.filter(p => !p.hasFolded && p.chips > 0)`. -/
def activeOf (players : List PlayerS) : List PlayerS :=
  players.filter (fun p => !p.hasFolded && p.chips > 0)

/-- `deck.deal()` — `cards.pop()`: remove and return the last card (an empty
deck yields no card; the source would return `undefined`, which no reachable
call does). -/
def dealD (deck : List Card) : List Card × List Card :=
  match deck.getLast? with
  | some c => ([c], deck.dropLast)
  | none => ([], deck)

/-- `deck.dealCards(count)`: `count` consecutive `deal()`s. -/
def dealCardsD : Nat → List Card → List Card × List Card
  | 0, deck => ([], deck)
  | n + 1, deck =>
    let d := dealD deck
    let rest := dealCardsD n d.2
    (d.1 ++ rest.1, rest.2)

/-- The `case 'call'` body of `handlePlayerAction` (also reused verbatim by
the source for the bot downgrade-to-call paths of `case 'raise'`): wager the
difference up to the street's current bet, capped at the whole stack, then
mark the player as having acted.  Returns the updated seat list and the
amount added to the informational `handState.pot`. -/
def doCall (players : List PlayerS) (hsCurrentBet : Int) (player : PlayerS) :
    List PlayerS × Int :=
  let callAmount := hsCurrentBet - player.currentBet
  if callAmount > player.chips then
    let r := betP player player.chips
    (updateById players player.id (fun _ => { r.1 with hasActed := true }), r.2)
  else
    let r := betP player callAmount
    (updateById players player.id (fun _ => { r.1 with hasActed := true }), r.2)

/-- The seat-skipping loop
`while ((players[i].hasFolded || players[i].chips === 0) && attempts < players.length)`
of `handlePlayerAction` (and the analogous unbounded loop of
`processBettingRound`, which on every reachable input finds an eligible seat
within `players.length` probes): `fuel` is the number of remaining
attempts. -/
def advanceLoop (players : List PlayerS) : Nat → Nat → Nat
  | idx, 0 => idx
  | idx, fuel + 1 =>
    let p := players.getD idx default
    if p.hasFolded || p.chips == 0 then
      advanceLoop players ((idx + 1) % players.length) fuel
    else idx

/-- The tail of `handlePlayerAction` after the `switch`: recompute the
active list, advance `currentPlayerIndex` to the next seat that is neither
folded nor broke, translating the full-list index into an index into the
active list (`findIndex` misses, `-1` in the source, are clamped to `0`). -/
def finishAction (gs : GState) (players' : List PlayerS) (hs' : HandStateS)
    (currentPlayerId : String) : GState :=
  let activeAfterAction := activeOf players'
  let currentIndexInFull := players'.findIdx (fun p => p.id == currentPlayerId)
  let nextStart := (currentIndexInFull + 1) % players'.length
  let nextIndexInFull := advanceLoop players' nextStart players'.length
  let nextPlayer := players'.getD nextIndexInFull default
  let idx := activeAfterAction.findIdx (fun p => p.id == nextPlayer.id)
  let newIdx := if idx < activeAfterAction.length then idx else 0
  { gs with players := players',
            handState := { hs' with currentPlayerIndex := newIdx } }

/-- `handlePlayerAction(roomId, playerId, action)`.  `none` marks the one
point where the source would throw (`currentPlayer` is `undefined` and its
`.id` is read); every guard `return` is a no-op `some gs`. -/
def hpAction (gs : GState) (playerId : String) (action : ActionS) :
    Option GState :=
  match gs.players.find? (fun p => p.id == playerId) with
  | none => some gs
  | some player =>
    let activePlayers := activeOf gs.players
    match activePlayers.get? gs.handState.currentPlayerIndex with
    | none => none
    | some currentPlayer =>
      if currentPlayer.id ≠ playerId then some gs
      else if player.hasActed && !player.isAllIn then some gs
      else
        let hs := gs.handState
        match action with
        | .fold =>
          let players' := updateById gs.players player.id
            (fun q => { q with hasFolded := true, hasActed := true })
          some (finishAction gs players' hs currentPlayer.id)
        | .check =>
          if player.currentBet < hs.currentBet then some gs
          else
            let players' := updateById gs.players player.id
              (fun q => { q with hasActed := true })
            some (finishAction gs players' hs currentPlayer.id)
        | .call =>
          let r := doCall gs.players hs.currentBet player
          some (finishAction gs r.1 { hs with pot := hs.pot + r.2 }
            currentPlayer.id)
        | .raise amount =>
          if amount ≤ 0 then some gs
          else
            let minRaise : Int := if hs.phase == "preflop" then 20 else 10
            let raiseCallAmount := hs.currentBet - player.currentBet
            let raiseAboveCall := amount - raiseCallAmount
            if raiseAboveCall < minRaise && amount < player.chips then
              if player.isBot then
                let r := doCall gs.players hs.currentBet player
                some (finishAction gs r.1 { hs with pot := hs.pot + r.2 }
                  currentPlayer.id)
              else some gs
            else
              let totalBet := player.currentBet + amount
              if totalBet ≤ hs.currentBet then
                if player.isBot then
                  let r := doCall gs.players hs.currentBet player
                  some (finishAction gs r.1 { hs with pot := hs.pot + r.2 }
                    currentPlayer.id)
                else some gs
              else if totalBet > player.chips + player.currentBet then some gs
              else
                let r := betP player amount
                let entryActiveIds := activePlayers.map (fun p => p.id)
                let players1 := updateById gs.players player.id (fun _ => r.1)
                let players2 := players1.map (fun q =>
                  if entryActiveIds.contains q.id && q.id ≠ player.id then
                    { q with hasActed := false }
                  else q)
                let players3 := updateById players2 player.id
                  (fun q => { q with hasActed := true })
                some (finishAction gs players3
                  { hs with currentBet := r.1.currentBet, pot := hs.pot + r.2 }
                  currentPlayer.id)

/-- The blind-posting block of `startHand` (from the dealer rotation through
`blindsPosted = true`).  `startHand` first resets the players, replaces
`handState` and the pot manager with fresh ones, reshuffles and deals; the
conservation baseline of a hand is taken at that point, and this function
embeds the subsequent chip-moving block: both blinds are wagered through
`Player.bet` with amounts read before either bet, and the `HandState`
bookkeeping fields are set.  `none` when fewer than two seats have chips
(the source returns without posting). -/
def postBlinds (gs : GState) : Option GState :=
  let activePlayers := gs.players.filter (fun p => p.chips > 0)
  if activePlayers.length < 2 then none
  else
    let dealerIndex := (gs.handState.dealerIndex + 1) % activePlayers.length
    let smallBlindIndex := (dealerIndex + 1) % activePlayers.length
    let bigBlindIndex := (smallBlindIndex + 1) % activePlayers.length
    let sbPlayer := activePlayers.getD smallBlindIndex default
    let bbPlayer := activePlayers.getD bigBlindIndex default
    let smallBlind := min 10 sbPlayer.chips
    let bigBlind := min 20 bbPlayer.chips
    let players1 := updateById gs.players sbPlayer.id (fun q => (betP q smallBlind).1)
    let players2 := updateById players1 bbPlayer.id (fun q => (betP q bigBlind).1)
    some { gs with
      players := players2,
      handState := { gs.handState with
        pot := smallBlind + bigBlind,
        currentBet := bigBlind,
        dealerIndex := dealerIndex,
        smallBlindIndex := smallBlindIndex,
        bigBlindIndex := bigBlindIndex,
        currentPlayerIndex := (bigBlindIndex + 1) % activePlayers.length } }

/-- The street-advancing part of `processBettingRound`: when every active
player has acted or is all-in and all active bets match the street bet,
consolidate the bets into the pots, deal the next street's community cards,
reset the active players' per-street state, and move the action to the first
eligible seat after the dealer.  `none` on the paths that call `endHand`
(one active player left, or the river is complete); `some gs` unchanged when
the betting round is not yet complete. -/
def streetAdvance (gs : GState) : Option GState :=
  let activePlayers := activeOf gs.players
  if activePlayers.length ≤ 1 then none
  else
    let hs := gs.handState
    let allActed := activePlayers.all (fun p => p.hasActed || p.isAllIn)
    let allBetsEqual := activePlayers.all
      (fun p => p.currentBet == hs.currentBet || p.isAllIn)
    if allActed && allBetsEqual then
      if hs.phase == "river" then none
      else
        let cb := collectBets gs.players gs.pots
        let players1 := cb.1
        let dealt :=
          if hs.phase == "preflop" then
            let d := dealCardsD 3 gs.deck
            (d.1, d.2, "flop")
          else if hs.phase == "flop" then
            let d := dealD gs.deck
            (hs.communityCards ++ d.1, d.2, "turn")
          else if hs.phase == "turn" then
            let d := dealD gs.deck
            (hs.communityCards ++ d.1, d.2, "river")
          else (hs.communityCards, gs.deck, hs.phase)
        let activeIds := activePlayers.map (fun p => p.id)
        let players2 := players1.map (fun q =>
          if activeIds.contains q.id then resetForNewBettingRound q else q)
        let dealerPlayer := activePlayers.getD hs.dealerIndex default
        let dealerIndexInAll := players2.findIdx (fun p => p.id == dealerPlayer.id)
        let nextStart := (dealerIndexInAll + 1) % players2.length
        let nextIndexInFull := advanceLoop players2 nextStart players2.length
        let nextPlayer := players2.getD nextIndexInFull default
        let newIdx := activePlayers.findIdx (fun p => p.id == nextPlayer.id)
        some { gs with
          players := players2,
          handState := { hs with
            phase := dealt.2.2,
            communityCards := dealt.1,
            currentBet := 0,
            currentPlayerIndex := newIdx },
          pots := cb.2,
          deck := dealt.2.1 }
    else some gs

/-- `Math.max(...)` over a list of scores (only applied to non-empty
lists by the source). -/
def maxScore : List Nat → Nat
  | [] => 0
  | x :: xs => xs.foldl Nat.max x

/-- The settlement part of `endHand`: flush any outstanding bets into the
pots, then either hand everything to the sole surviving player or evaluate
every non-folded player's seven cards and distribute each pot to its
best-scoring eligible contributors, `Math.floor`-dividing the pot among
ties.  Pot amounts are not changed by distribution (as in the source).
The evaluations are computed once, before any pot is paid, over the
post-`collectBets` seat list (the same objects the source mutates). -/
def endHandCore (gs : GState) : GState :=
  let activePlayers := gs.players.filter (fun p => !p.hasFolded)
  let cbOut := collectBets gs.players gs.pots
  let players1 := cbOut.1
  let pots1 := cbOut.2
  if activePlayers.length == 1 then
    let survivor := activePlayers.getD 0 default
    let totalWinnings := (pots1.map (fun pot => pot.amount)).sum
    let players2 := updateById players1 survivor.id
      (fun q => { q with chips := q.chips + totalWinnings })
    { gs with
      players := players2
      pots := pots1
      handState := { gs.handState with
        phase := "showdown"
        winners := [{ playerId := survivor.id, playerName := survivor.name,
                      hand := none, share := totalWinnings, potIndex := 0,
                      isMainPot := true }] } }
  else
    let evals := (players1.filter (fun p => !p.hasFolded)).map (fun p =>
      (p, (evaluateHand (p.hand ++ gs.handState.communityCards)).getD
        { rankName := "Invalid", score := 0, cards := [] }))
    let distributed := pots1.enum.foldl (fun acc idxPot =>
      let potIndex := idxPot.1
      let pot := idxPot.2
      if pot.amount == 0 then acc
      else
        let eligible := evals.filter (fun pe => pot.contributors.contains pe.1.id)
        if eligible.isEmpty then acc
        else
          let bestScore := maxScore (eligible.map (fun pe => pe.2.score))
          let potWinners := eligible.filter (fun pe => pe.2.score == bestScore)
          let share := Int.fdiv pot.amount potWinners.length
          let players' := potWinners.foldl (fun ps pe =>
            updateById ps pe.1.id (fun q => { q with chips := q.chips + share }))
            acc.1
          let log' := acc.2 ++ potWinners.map (fun pe =>
            { playerId := pe.1.id, playerName := pe.1.name, hand := some pe.2,
              share := share, potIndex := potIndex,
              isMainPot := potIndex == 0 })
          (players', log')) (players1, ([] : List WinnerEntry))
    { gs with
      players := distributed.1
      pots := pots1
      handState := { gs.handState with
        phase := "showdown"
        winners := distributed.2 } }

/-! ### The engine steps of a hand and the conserved chip quantity -/

/-- One engine step of a hand: a submitted fold/check/call/raise action,
the blind posting at hand start, or a street transition with bet
collection. -/
inductive EngineStep : GState → GState → Prop where
  | action (gs : GState) (playerId : String) (a : ActionS) (gs' : GState) :
      hpAction gs playerId a = some gs' → EngineStep gs gs'
  | blinds (gs gs' : GState) : postBlinds gs = some gs' → EngineStep gs gs'
  | street (gs gs' : GState) : streetAdvance gs = some gs' → EngineStep gs gs'

/-- `sum(player.chips) + sum(player.currentBet)` over a seat list. -/
def sumCB (players : List PlayerS) : Int :=
  (players.map (fun p => p.chips + p.currentBet)).sum

/-- `sum(pot.amount)` over a pot list. -/
def sumPots (pots : List Pot) : Int :=
  (pots.map (fun pot => pot.amount)).sum

/-- The conserved quantity:
`sum(player.chips) + sum(player.currentBet) + sum(pot.amount)`. -/
def chipTotal (gs : GState) : Int := sumCB gs.players + sumPots gs.pots

/-- States the engine actually reaches: every stack and pending bet is a
non-negative amount and the street's current bet is non-negative. -/
def WFState (gs : GState) : Prop :=
  (∀ p ∈ gs.players, 0 ≤ p.chips ∧ 0 ≤ p.currentBet) ∧
    0 ≤ gs.handState.currentBet

instance : DecidablePred WFState := fun gs => by
  unfold WFState; infer_instance

/-! ### Claim theorems -/

/-- C9: `Player.bet` never overdraws — for every requested amount and every
player with non-negative chips, `bet(amount)` wagers exactly
`min(amount, chips)`, so chips remain non-negative afterwards, `currentBet`
increases by exactly the wagered amount, the returned value equals the
wagered amount, and (for a player not already flagged all-in) `isAllIn` is
set exactly when the chips reach `0` by this bet. -/
theorem betP_spec (p : PlayerS) (amount : Int) (_h : 0 ≤ p.chips) :
    (betP p amount).2 = min amount p.chips ∧
    (betP p amount).1.chips = p.chips - min amount p.chips ∧
    0 ≤ (betP p amount).1.chips ∧
    (betP p amount).1.currentBet = p.currentBet + (betP p amount).2 ∧
    ((betP p amount).1.chips = 0 → (betP p amount).1.isAllIn = true) ∧
    (p.isAllIn = false →
      ((betP p amount).1.isAllIn = true ↔ (betP p amount).1.chips = 0)) := by
  have hmin : min amount p.chips ≤ p.chips := min_le_right _ _
  unfold betP
  refine ⟨rfl, rfl, by dsimp only; omega, rfl, ?_, ?_⟩
  · dsimp only
    intro h0
    simp [h0]
  · intro hall
    dsimp only
    constructor
    · intro hset
      by_contra h0
      simp [h0, hall] at hset
    · intro h0
      simp [h0]

theorem betP_spec_witness :
    0 ≤ (mkPlayer "w" "W" 100).chips ∧
    ((betP (mkPlayer "w" "W" 100) 30).2 = min 30 (mkPlayer "w" "W" 100).chips ∧
     (betP (mkPlayer "w" "W" 100) 30).1.chips =
       (mkPlayer "w" "W" 100).chips - min 30 (mkPlayer "w" "W" 100).chips ∧
     0 ≤ (betP (mkPlayer "w" "W" 100) 30).1.chips ∧
     (betP (mkPlayer "w" "W" 100) 30).1.currentBet =
       (mkPlayer "w" "W" 100).currentBet + (betP (mkPlayer "w" "W" 100) 30).2 ∧
     ((betP (mkPlayer "w" "W" 100) 30).1.chips = 0 →
       (betP (mkPlayer "w" "W" 100) 30).1.isAllIn = true) ∧
     ((mkPlayer "w" "W" 100).isAllIn = false →
       ((betP (mkPlayer "w" "W" 100) 30).1.isAllIn = true ↔
         (betP (mkPlayer "w" "W" 100) 30).1.chips = 0))) :=
  ⟨by decide, betP_spec (mkPlayer "w" "W" 100) 30 (by decide)⟩

/-- C8: the wheel — evaluating the five cards A♣ 2♦ 3♥ 4♠ 5♣ yields the
Straight category with high card 5, i.e. score `4000005`; the Ace plays
low. -/
theorem wheel_straight_eval :
    (evaluateFiveCards
      [⟨Rank.A, Suit.C⟩, ⟨Rank.R2, Suit.D⟩, ⟨Rank.R3, Suit.H⟩,
       ⟨Rank.R4, Suit.S⟩, ⟨Rank.R5, Suit.C⟩]).rankName = "Straight" ∧
    (evaluateFiveCards
      [⟨Rank.A, Suit.C⟩, ⟨Rank.R2, Suit.D⟩, ⟨Rank.R3, Suit.H⟩,
       ⟨Rank.R4, Suit.S⟩, ⟨Rank.R5, Suit.C⟩]).score = 4000005 := by decide

/-- C3: the side-pot ladder on the two documented scenarios.  Scenario 1:
bets 1000/100/1000 (via `Player.bet`, so B is all-in) produce a main pot of
300 contributed by A, B, C and a side pot of 1800 contributed by A and C.
Scenario 2: bets 1000/200/500/1000 produce pots 800/900/1000 with
contributor sets A,B,C,D / A,C,D / A,D. -/
theorem side_pot_ladder :
    (collectBets
      [(betP (mkPlayer "A" "Alice" 1000) 1000).1,
       (betP (mkPlayer "B" "Bob" 100) 100).1,
       (betP (mkPlayer "C" "Charlie" 1000) 1000).1]
      [{ amount := 0, contributors := [] }]).2
      = [{ amount := 300, contributors := ["A", "B", "C"] },
         { amount := 1800, contributors := ["A", "C"] }] ∧
    (collectBets
      [(betP (mkPlayer "A" "Alice" 1000) 1000).1,
       (betP (mkPlayer "B" "Bob" 200) 200).1,
       (betP (mkPlayer "C" "Charlie" 500) 500).1,
       (betP (mkPlayer "D" "Dave" 1000) 1000).1]
      [{ amount := 0, contributors := [] }]).2
      = [{ amount := 800, contributors := ["A", "B", "C", "D"] },
         { amount := 900, contributors := ["A", "C", "D"] },
         { amount := 1000, contributors := ["A", "D"] }] := by decide

/-- C2 (failing input): the hand 9♥8♥7♥6♥5♥ is categorised Straight Flush
and A♠K♠Q♠J♠9♠ is categorised Flush — a strictly higher category — yet the
flush's score (`5000000` plus positional weights up to `14·100⁴`) is
strictly greater than the straight flush's `8000009`: the positional
weights of the Flush branch overflow the 1,000,000 category spacing. -/
theorem flush_outscores_straight_flush :
    (evaluateFiveCards
      [⟨Rank.R9, Suit.H⟩, ⟨Rank.R8, Suit.H⟩, ⟨Rank.R7, Suit.H⟩,
       ⟨Rank.R6, Suit.H⟩, ⟨Rank.R5, Suit.H⟩]).rankName = "Straight Flush" ∧
    (evaluateFiveCards
      [⟨Rank.A, Suit.S⟩, ⟨Rank.K, Suit.S⟩, ⟨Rank.Q, Suit.S⟩,
       ⟨Rank.J, Suit.S⟩, ⟨Rank.R9, Suit.S⟩]).rankName = "Flush" ∧
    (evaluateFiveCards
      [⟨Rank.R9, Suit.H⟩, ⟨Rank.R8, Suit.H⟩, ⟨Rank.R7, Suit.H⟩,
       ⟨Rank.R6, Suit.H⟩, ⟨Rank.R5, Suit.H⟩]).score <
    (evaluateFiveCards
      [⟨Rank.A, Suit.S⟩, ⟨Rank.K, Suit.S⟩, ⟨Rank.Q, Suit.S⟩,
       ⟨Rank.J, Suit.S⟩, ⟨Rank.R9, Suit.S⟩]).score := by decide

/-- C5 (failing input): the seven cards A♠K♠Q♠J♠10♠ plus 2♥ 3♦ do contain a
royal flush, but `evaluateHand` returns the High Card evaluation of
A♠K♠Q♠J♠3♦ with score `1413121103` (the un-offset High Card branch
overflows every category base), not the straight-flush score `9000014`. -/
theorem royal_flush_misrecognised :
    ((evaluateHand
      [⟨Rank.A, Suit.S⟩, ⟨Rank.K, Suit.S⟩, ⟨Rank.Q, Suit.S⟩, ⟨Rank.J, Suit.S⟩,
       ⟨Rank.R10, Suit.S⟩, ⟨Rank.R2, Suit.H⟩, ⟨Rank.R3, Suit.D⟩]).map
        (fun e => e.rankName)) = some "High Card" ∧
    ((evaluateHand
      [⟨Rank.A, Suit.S⟩, ⟨Rank.K, Suit.S⟩, ⟨Rank.Q, Suit.S⟩, ⟨Rank.J, Suit.S⟩,
       ⟨Rank.R10, Suit.S⟩, ⟨Rank.R2, Suit.H⟩, ⟨Rank.R3, Suit.D⟩]).map
        (fun e => e.score)) = some 1413121103 ∧
    ((evaluateHand
      [⟨Rank.A, Suit.S⟩, ⟨Rank.K, Suit.S⟩, ⟨Rank.Q, Suit.S⟩, ⟨Rank.J, Suit.S⟩,
       ⟨Rank.R10, Suit.S⟩, ⟨Rank.R2, Suit.H⟩, ⟨Rank.R3, Suit.D⟩]).map
        (fun e => e.score)) ≠ some 9000014 := by decide

/-! ### Lemmas about `collectBets` -/

/-- `sum(player.currentBet)` over a seat list. -/
def sumBets (ps : List PlayerS) : Int :=
  (ps.map (fun p => p.currentBet)).sum

/-- Number of players with a positive pending bet. -/
def posCount (ps : List PlayerS) : Nat :=
  (ps.filter (fun p => p.currentBet > 0)).length

/-- Pointwise effect of one `collectBets` pass on one player. -/
def passPlayer (minBet : Int) (p : PlayerS) : PlayerS :=
  if p.currentBet > 0 then
    { p with currentBet := p.currentBet - min p.currentBet minBet }
  else p

theorem processPass_players (minBet : Int) :
    ∀ ps : List PlayerS, (processPass minBet ps).1 = ps.map (passPlayer minBet) := by
  intro ps
  induction ps with
  | nil => rfl
  | cons p rest ih =>
    simp only [processPass, List.map_cons]
    by_cases h : p.currentBet > 0
    · rw [if_pos h]
      simp only [passPlayer, if_pos h, ih]
    · rw [if_neg h]
      simp only [passPlayer, if_neg h, ih]

theorem processPass_amount (minBet : Int) :
    ∀ ps : List PlayerS,
      sumBets (processPass minBet ps).1 + (processPass minBet ps).2.1 = sumBets ps := by
  intro ps
  induction ps with
  | nil => simp [processPass, sumBets]
  | cons p rest ih =>
    simp only [processPass]
    by_cases h : p.currentBet > 0
    · rw [if_pos h]
      simp only [sumBets, List.map_cons, List.sum_cons] at ih ⊢
      omega
    · rw [if_neg h]
      simp only [sumBets, List.map_cons, List.sum_cons] at ih ⊢
      omega

theorem processPass_ids (minBet : Int) :
    ∀ ps : List PlayerS,
      (processPass minBet ps).2.2.1 =
        (ps.filter (fun p => p.currentBet > 0)).map (fun p => p.id) := by
  intro ps
  induction ps with
  | nil => rfl
  | cons p rest ih =>
    simp only [processPass, List.filter_cons]
    by_cases h : p.currentBet > 0
    · rw [if_pos h]
      simp only [ih]
      simp [h]
    · rw [if_neg h]
      simp only [ih]
      simp [h]

theorem passPlayer_nonneg (minBet : Int) (p : PlayerS) (h : 0 ≤ p.currentBet) :
    0 ≤ (passPlayer minBet p).currentBet := by
  unfold passPlayer
  have := min_le_left p.currentBet minBet
  split
  · dsimp only
    omega
  · exact h

theorem passPlayer_pos (minBet : Int) (p : PlayerS) :
    0 < (passPlayer minBet p).currentBet → 0 < p.currentBet := by
  unfold passPlayer
  split
  · dsimp only
    intro h
    omega
  · exact fun h => h

theorem passPlayer_attains (minBet : Int) (p : PlayerS) (h : 0 < p.currentBet)
    (he : p.currentBet = minBet) : (passPlayer minBet p).currentBet = 0 := by
  unfold passPlayer
  rw [if_pos h]
  dsimp only
  rw [← he, min_self]
  omega

theorem foldl_min_le_init : ∀ (xs : List Int) (x : Int), xs.foldl min x ≤ x := by
  intro xs
  induction xs with
  | nil => simp
  | cons y ys ih =>
    intro x
    calc (y :: ys).foldl min x = ys.foldl min (min x y) := rfl
    _ ≤ min x y := ih _
    _ ≤ x := min_le_left _ _

theorem foldl_min_le_mem :
    ∀ (xs : List Int) (x y : Int), y ∈ xs → xs.foldl min x ≤ y := by
  intro xs
  induction xs with
  | nil => intro x y hy; simp at hy
  | cons z zs ih =>
    intro x y hy
    rcases List.mem_cons.mp hy with h | h
    · rw [h]
      calc (z :: zs).foldl min x = zs.foldl min (min x z) := rfl
      _ ≤ min x z := foldl_min_le_init _ _
      _ ≤ z := min_le_right _ _
    · exact ih _ y h

theorem foldl_min_mem :
    ∀ (xs : List Int) (x : Int), xs.foldl min x = x ∨ xs.foldl min x ∈ xs := by
  intro xs
  induction xs with
  | nil => intro x; left; rfl
  | cons z zs ih =>
    intro x
    rcases ih (min x z) with h | h
    · rcases le_total x z with hxz | hxz
      · left
        calc (z :: zs).foldl min x = zs.foldl min (min x z) := rfl
        _ = min x z := h
        _ = x := min_eq_left hxz
      · right
        refine List.mem_cons.mpr (Or.inl ?_)
        calc (z :: zs).foldl min x = zs.foldl min (min x z) := rfl
        _ = min x z := h
        _ = z := min_eq_right hxz
    · right
      exact List.mem_cons.mpr (Or.inr h)

theorem minPos_mem (l : List Int) (h : l ≠ []) : minPos l ∈ l := by
  cases l with
  | nil => exact absurd rfl h
  | cons x xs =>
    rcases foldl_min_mem xs x with h' | h'
    · rw [minPos, h']; exact List.mem_cons_self _ _
    · exact List.mem_cons.mpr (Or.inr (by rw [minPos]; exact h'))

theorem minPos_le (l : List Int) (y : Int) (hy : y ∈ l) : minPos l ≤ y := by
  cases l with
  | nil => simp at hy
  | cons x xs =>
    rcases List.mem_cons.mp hy with h | h
    · subst h; exact foldl_min_le_init _ _
    · exact foldl_min_le_mem _ _ _ h

theorem posCount_map_le (minBet : Int) :
    ∀ ps : List PlayerS, posCount (ps.map (passPlayer minBet)) ≤ posCount ps := by
  intro ps
  induction ps with
  | nil => simp [posCount]
  | cons p rest ih =>
    simp only [posCount, List.map_cons, List.filter_cons] at ih ⊢
    by_cases h : 0 < (passPlayer minBet p).currentBet
    · have hp : 0 < p.currentBet := passPlayer_pos _ _ h
      simp only [gt_iff_lt, h, hp, decide_eq_true_eq, if_pos, List.length_cons]
      simp only [gt_iff_lt] at ih
      omega
    · by_cases hp : 0 < p.currentBet
      · simp only [gt_iff_lt, decide_eq_true_eq] at ih ⊢
        rw [if_neg h, if_pos hp]
        simp only [List.length_cons]
        omega
      · simp only [gt_iff_lt, decide_eq_true_eq] at ih ⊢
        rw [if_neg h, if_neg hp]
        omega

theorem posCount_map_lt (minBet : Int) :
    ∀ ps : List PlayerS, (∃ p ∈ ps, 0 < p.currentBet ∧ p.currentBet = minBet) →
      posCount (ps.map (passPlayer minBet)) < posCount ps := by
  intro ps
  induction ps with
  | nil => rintro ⟨p, hp, _⟩; simp at hp
  | cons q rest ih =>
    rintro ⟨p, hp, hpos, hmin⟩
    rcases List.mem_cons.mp hp with h | h
    · have hq : 0 < q.currentBet := by rw [← h]; exact hpos
      have hqmin : q.currentBet = minBet := by rw [← h]; exact hmin
      have h0 : (passPlayer minBet q).currentBet = 0 :=
        passPlayer_attains _ _ hq hqmin
      have hle := posCount_map_le minBet rest
      simp only [posCount, List.map_cons, List.filter_cons, gt_iff_lt,
        decide_eq_true_eq] at hle ⊢
      rw [if_neg (by omega : ¬ 0 < (passPlayer minBet q).currentBet), if_pos hq]
      simp only [List.length_cons]
      omega
    · have hlt := ih ⟨p, h, hpos, hmin⟩
      simp only [posCount, List.map_cons, List.filter_cons, gt_iff_lt,
        decide_eq_true_eq] at hlt ⊢
      by_cases hq : 0 < (passPlayer minBet q).currentBet
      · have hqp : 0 < q.currentBet := passPlayer_pos _ _ hq
        rw [if_pos hq, if_pos hqp]
        simp only [List.length_cons]
        omega
      · by_cases hqp : 0 < q.currentBet
        · rw [if_neg hq, if_pos hqp]
          simp only [List.length_cons]
          omega
        · rw [if_neg hq, if_neg hqp]
          omega

theorem mem_insertContributor (s : List String) (id x : String) (h : x ∈ s) :
    x ∈ insertContributor s id := by
  unfold insertContributor
  split
  · exact h
  · exact List.mem_append.mpr (Or.inl h)

theorem mem_insertContributor_self (s : List String) (id : String) :
    id ∈ insertContributor s id := by
  unfold insertContributor
  split
  · assumption
  · exact List.mem_append.mpr (Or.inr (List.mem_singleton.mpr rfl))

theorem mem_foldl_insert (ids : List String) :
    ∀ (s : List String) (x : String), x ∈ s → x ∈ ids.foldl insertContributor s := by
  induction ids with
  | nil => intro s x h; exact h
  | cons i rest ih =>
    intro s x h
    exact ih _ x (mem_insertContributor _ _ _ h)

theorem mem_foldl_insert_of_mem (ids : List String) :
    ∀ (s : List String) (x : String), x ∈ ids → x ∈ ids.foldl insertContributor s := by
  induction ids with
  | nil => intro s x h; simp at h
  | cons i rest ih =>
    intro s x h
    rcases List.mem_cons.mp h with h | h
    · rw [h]
      exact mem_foldl_insert rest _ _ (mem_insertContributor_self _ _)
    · exact ih _ x h

theorem sumPots_addToLast (amt : Int) (ids : List String) :
    ∀ pots : List Pot, pots ≠ [] →
      sumPots (addToLast amt ids pots) = sumPots pots + amt := by
  intro pots
  induction pots with
  | nil => intro h; exact absurd rfl h
  | cons pot rest ih =>
    intro _
    cases rest with
    | nil => simp [addToLast, sumPots]
    | cons pot2 rest2 =>
      simp only [addToLast, sumPots, List.map_cons, List.sum_cons] at ih ⊢
      rw [ih (by simp)]
      ring

theorem addToLast_mem_preserve (amt : Int) (ids : List String) (id : String) :
    ∀ pots : List Pot, (∃ pot ∈ pots, id ∈ pot.contributors) →
      ∃ pot ∈ addToLast amt ids pots, id ∈ pot.contributors := by
  intro pots
  induction pots with
  | nil => rintro ⟨pot, hpot, _⟩; simp at hpot
  | cons pot rest ih =>
    rintro ⟨pot', hpot', hid⟩
    cases rest with
    | nil =>
      refine ⟨_, List.mem_singleton.mpr rfl, ?_⟩
      rcases List.mem_cons.mp hpot' with h | h
      · exact mem_foldl_insert _ _ _ (h ▸ hid)
      · simp at h
    | cons pot2 rest2 =>
      rcases List.mem_cons.mp hpot' with h | h
      · exact ⟨pot, List.mem_cons_self _ _, h ▸ hid⟩
      · have := ih ⟨pot', h, hid⟩
        rcases this with ⟨pot'', hpot'', hid''⟩
        exact ⟨pot'', List.mem_cons.mpr (Or.inr hpot''), hid''⟩

theorem addToLast_adds (amt : Int) (ids : List String) (id : String) (hid : id ∈ ids) :
    ∀ pots : List Pot, pots ≠ [] →
      ∃ pot ∈ addToLast amt ids pots, id ∈ pot.contributors := by
  intro pots
  induction pots with
  | nil => intro h; exact absurd rfl h
  | cons pot rest ih =>
    intro _
    cases rest with
    | nil =>
      exact ⟨_, List.mem_singleton.mpr rfl, mem_foldl_insert_of_mem _ _ _ hid⟩
    | cons pot2 rest2 =>
      rcases ih (by simp) with ⟨pot', hpot', hid'⟩
      exact ⟨pot', List.mem_cons.mpr (Or.inr hpot'), hid'⟩

theorem setBet0_pass (m : Int) (p : PlayerS) :
    ({ passPlayer m p with currentBet := 0 } : PlayerS) =
      { p with currentBet := 0 } := by
  unfold passPlayer
  split <;> rfl

theorem map_setBet0_eq :
    ∀ ps : List PlayerS, (∀ p ∈ ps, p.currentBet = 0) →
      ps.map (fun p => { p with currentBet := 0 }) = ps := by
  intro ps
  induction ps with
  | nil => intro _; rfl
  | cons p rest ih =>
    intro h
    have hp := h p (List.mem_cons_self _ _)
    simp only [List.map_cons]
    rw [ih (fun q hq => h q (List.mem_cons.mpr (Or.inr hq)))]
    cases p
    simp_all

theorem sumBets_zero :
    ∀ ps : List PlayerS, (∀ p ∈ ps, p.currentBet = 0) → sumBets ps = 0 := by
  intro ps
  induction ps with
  | nil => intro _; rfl
  | cons p rest ih =>
    intro h
    simp only [sumBets, List.map_cons, List.sum_cons]
    rw [h p (List.mem_cons_self _ _)]
    have := ih (fun q hq => h q (List.mem_cons.mpr (Or.inr hq)))
    simp only [sumBets] at this
    omega

theorem sumPots_append (a b : List Pot) : sumPots (a ++ b) = sumPots a + sumPots b := by
  simp [sumPots]

theorem collectBetsLoop_main :
    ∀ (fuel : Nat) (ps : List PlayerS) (pots : List Pot),
      (∀ p ∈ ps, 0 ≤ p.currentBet) → posCount ps ≤ fuel →
      (collectBetsLoop fuel ps pots).1 =
          ps.map (fun p => { p with currentBet := 0 }) ∧
        sumPots (collectBetsLoop fuel ps pots).2 = sumPots pots + sumBets ps := by
  intro fuel
  induction fuel with
  | zero =>
    intro ps pots hnn hpc
    have hall : ∀ p ∈ ps, p.currentBet = 0 := by
      intro p hp
      have h0 : (ps.filter (fun p => p.currentBet > 0)).length = 0 := by
        simpa [posCount] using hpc
      have hnil := List.length_eq_zero.mp h0
      have : ¬ (p.currentBet > 0) := by
        intro hpos
        have : p ∈ ps.filter (fun p => p.currentBet > 0) :=
          List.mem_filter.mpr ⟨hp, by simpa using hpos⟩
        rw [hnil] at this
        simp at this
      have := hnn p hp
      omega
    refine ⟨(map_setBet0_eq ps hall).symm, ?_⟩
    show sumPots pots = sumPots pots + sumBets ps
    rw [sumBets_zero ps hall]
    ring
  | succ f ih =>
    intro ps pots hnn hpc
    by_cases hany : ps.any (fun p => p.currentBet > 0)
    · rw [collectBetsLoop, if_pos hany]
      obtain ⟨p0, hp0, hp0pos⟩ := List.any_eq_true.mp hany
      have hp0pos' : 0 < p0.currentBet := by simpa using hp0pos
      -- the minimum positive bet is attained by some positive player
      have hbets_ne :
          ((ps.filter (fun p => p.currentBet > 0)).map (fun p => p.currentBet)) ≠ [] := by
        have : p0 ∈ ps.filter (fun p => p.currentBet > 0) :=
          List.mem_filter.mpr ⟨hp0, by simpa using hp0pos'⟩
        intro hcontra
        rw [List.map_eq_nil_iff] at hcontra
        rw [hcontra] at this
        simp at this
      set minBet :=
        minPos ((ps.filter (fun p => p.currentBet > 0)).map (fun p => p.currentBet))
        with hminBet
      have hmem := minPos_mem _ hbets_ne
      rw [← hminBet] at hmem
      obtain ⟨pa, hpa, hpaeq⟩ := List.mem_map.mp hmem
      have hpa' := List.mem_filter.mp hpa
      have hpapos : 0 < pa.currentBet := by
        have := hpa'.2
        simpa using this
      -- facts used by the induction hypothesis
      have hattain : ∃ p ∈ ps, 0 < p.currentBet ∧ p.currentBet = minBet :=
        ⟨pa, hpa'.1, hpapos, hpaeq⟩
      have hnn' : ∀ p ∈ ps.map (passPlayer minBet), 0 ≤ p.currentBet := by
        intro p hp
        obtain ⟨q, hq, hqe⟩ := List.mem_map.mp hp
        rw [← hqe]
        exact passPlayer_nonneg _ _ (hnn q hq)
      have hpc' : posCount (ps.map (passPlayer minBet)) ≤ f := by
        have := posCount_map_lt minBet ps hattain
        omega
      have hplayers : (processPass minBet ps).1 = ps.map (passPlayer minBet) :=
        processPass_players minBet ps
      -- the new pot list after this pass
      have hpots1ne :
          (if pots.isEmpty then [({ amount := 0, contributors := [] } : Pot)] else pots) ≠ [] := by
        by_cases hpe : pots.isEmpty
        · simp [hpe]
        · simp only [if_neg hpe]
          intro hcontra
          rw [hcontra] at hpe
          simp at hpe
      have hsum1 :
          sumPots (if pots.isEmpty then [({ amount := 0, contributors := [] } : Pot)] else pots) =
            sumPots pots := by
        by_cases hpe : pots.isEmpty
        · rw [if_pos hpe, List.isEmpty_iff.mp hpe]
          simp [sumPots]
        · rw [if_neg hpe]
      obtain ⟨ih1, ih2⟩ := ih (processPass minBet ps).1 _
        (hplayers ▸ hnn') (hplayers ▸ hpc')
      refine ⟨?_, ?_⟩
      · rw [ih1, hplayers, List.map_map]
        have : ((fun p => ({ p with currentBet := 0 } : PlayerS)) ∘ passPlayer minBet) =
            fun p => ({ p with currentBet := 0 } : PlayerS) := by
          funext p
          exact setBet0_pass minBet p
        rw [this]
      · rw [ih2]
        have hstep : sumPots
            (if (processPass minBet ps).2.2.2.any (fun p => p.isAllIn && p.currentBet == 0) &&
                (processPass minBet ps).1.any (fun p => p.currentBet > 0) then
              addToLast (processPass minBet ps).2.1 (processPass minBet ps).2.2.1
                (if pots.isEmpty then [({ amount := 0, contributors := [] } : Pot)] else pots) ++
                [({ amount := 0, contributors := [] } : Pot)]
            else
              addToLast (processPass minBet ps).2.1 (processPass minBet ps).2.2.1
                (if pots.isEmpty then [({ amount := 0, contributors := [] } : Pot)] else pots)) =
            sumPots pots + (processPass minBet ps).2.1 := by
          split
          · rw [sumPots_append, sumPots_addToLast _ _ _ hpots1ne, hsum1]
            simp [sumPots]
          · rw [sumPots_addToLast _ _ _ hpots1ne, hsum1]
        rw [hstep]
        have hamt := processPass_amount minBet ps
        omega
    · rw [collectBetsLoop, if_neg hany]
      have hall : ∀ p ∈ ps, p.currentBet = 0 := by
        have hle : ∀ x ∈ ps, x.currentBet ≤ 0 := by simpa using hany
        intro p hp
        have := hle p hp
        have h2 := hnn p hp
        omega
      refine ⟨(map_setBet0_eq ps hall).symm, ?_⟩
      show sumPots pots = sumPots pots + sumBets ps
      rw [sumBets_zero ps hall]
      ring

theorem collectBetsLoop_mono :
    ∀ (fuel : Nat) (ps : List PlayerS) (pots : List Pot) (id : String),
      (∃ pot ∈ pots, id ∈ pot.contributors) →
      ∃ pot ∈ (collectBetsLoop fuel ps pots).2, id ∈ pot.contributors := by
  intro fuel
  induction fuel with
  | zero => intro ps pots id h; exact h
  | succ f ih =>
    intro ps pots id h
    by_cases hany : ps.any (fun p => p.currentBet > 0)
    · rw [collectBetsLoop, if_pos hany]
      apply ih
      have hne : pots ≠ [] := by
        rcases h with ⟨pot, hpot, _⟩
        intro hcontra
        rw [hcontra] at hpot
        simp at hpot
      have hpots1 :
          (if pots.isEmpty then [({ amount := 0, contributors := [] } : Pot)] else pots) =
            pots := by
        rw [if_neg (by simpa [List.isEmpty_iff] using hne)]
      rw [hpots1]
      have h2 := addToLast_mem_preserve (processPass
        (minPos ((ps.filter (fun p => p.currentBet > 0)).map (fun p => p.currentBet)))
        ps).2.1 (processPass
        (minPos ((ps.filter (fun p => p.currentBet > 0)).map (fun p => p.currentBet)))
        ps).2.2.1 id pots h
      split
      · rcases h2 with ⟨pot, hpot, hid⟩
        exact ⟨pot, List.mem_append.mpr (Or.inl hpot), hid⟩
      · exact h2
    · rw [collectBetsLoop, if_neg hany]
      exact h

theorem collectBetsLoop_contrib (fuel : Nat) (ps : List PlayerS) (pots : List Pot)
    (p : PlayerS) (hp : p ∈ ps) (hpos : 0 < p.currentBet) :
    ∃ pot ∈ (collectBetsLoop (fuel + 1) ps pots).2, p.id ∈ pot.contributors := by
  have hany : ps.any (fun p => p.currentBet > 0) = true :=
    List.any_eq_true.mpr ⟨p, hp, by simpa using hpos⟩
  rw [collectBetsLoop, if_pos hany]
  apply collectBetsLoop_mono
  set minBet :=
    minPos ((ps.filter (fun q => q.currentBet > 0)).map (fun q => q.currentBet))
  have hid : p.id ∈ (processPass minBet ps).2.2.1 := by
    rw [processPass_ids]
    exact List.mem_map.mpr ⟨p, List.mem_filter.mpr ⟨hp, by simpa using hpos⟩, rfl⟩
  have hpots1ne :
      (if pots.isEmpty then [({ amount := 0, contributors := [] } : Pot)] else pots) ≠ [] := by
    by_cases hpe : pots.isEmpty
    · simp [hpe]
    · simp only [if_neg hpe]
      intro hcontra
      rw [hcontra] at hpe
      simp at hpe
  have h2 := addToLast_adds (processPass minBet ps).2.1 _ p.id hid _ hpots1ne
  split
  · rcases h2 with ⟨pot, hpot, hidp⟩
    exact ⟨pot, List.mem_append.mpr (Or.inl hpot), hidp⟩
  · exact h2

/-- C6: `collectBets` postcondition — for any seat list with non-negative
pending bets, the loop terminates with every `currentBet` equal to zero
(indeed the seat list is exactly the input with every `currentBet` zeroed,
all other fields untouched), the total amount added across all pots equals
the sum of the pending bets, and every player whose bet was positive ends
up in the contributor set of at least one of the resulting pots. -/
theorem collectBets_spec (players : List PlayerS) (pots : List Pot)
    (h : ∀ p ∈ players, 0 ≤ p.currentBet) :
    (∀ q ∈ (collectBets players pots).1, q.currentBet = 0) ∧
    (collectBets players pots).1 =
      players.map (fun p => { p with currentBet := 0 }) ∧
    sumPots (collectBets players pots).2 = sumPots pots + sumBets players ∧
    (∀ p ∈ players, 0 < p.currentBet →
      ∃ pot ∈ (collectBets players pots).2, p.id ∈ pot.contributors) := by
  have hpc : posCount players ≤ players.length + 1 := by
    have := List.length_filter_le (fun p => p.currentBet > 0) players
    simp only [posCount]
    omega
  obtain ⟨h1, h2⟩ := collectBetsLoop_main (players.length + 1) players pots h hpc
  refine ⟨?_, h1, h2, ?_⟩
  · intro q hq
    rw [show (collectBets players pots).1 =
        (collectBetsLoop (players.length + 1) players pots).1 from rfl, h1] at hq
    obtain ⟨p, _, hpe⟩ := List.mem_map.mp hq
    rw [← hpe]
  · intro p hp hpos
    exact collectBetsLoop_contrib players.length players pots p hp hpos

theorem collectBets_spec_witness :
    (∀ p ∈ [(betP (mkPlayer "x" "X" 100) 60).1, mkPlayer "y" "Y" 50],
       0 ≤ p.currentBet) ∧
    ((∀ q ∈ (collectBets [(betP (mkPlayer "x" "X" 100) 60).1, mkPlayer "y" "Y" 50]
        [{ amount := 0, contributors := [] }]).1, q.currentBet = 0) ∧
     (collectBets [(betP (mkPlayer "x" "X" 100) 60).1, mkPlayer "y" "Y" 50]
        [{ amount := 0, contributors := [] }]).1 =
       [(betP (mkPlayer "x" "X" 100) 60).1, mkPlayer "y" "Y" 50].map
         (fun p => { p with currentBet := 0 }) ∧
     sumPots (collectBets [(betP (mkPlayer "x" "X" 100) 60).1, mkPlayer "y" "Y" 50]
        [{ amount := 0, contributors := [] }]).2 =
       sumPots [{ amount := 0, contributors := [] }] +
         sumBets [(betP (mkPlayer "x" "X" 100) 60).1, mkPlayer "y" "Y" 50] ∧
     (∀ p ∈ [(betP (mkPlayer "x" "X" 100) 60).1, mkPlayer "y" "Y" 50],
        0 < p.currentBet →
        ∃ pot ∈ (collectBets [(betP (mkPlayer "x" "X" 100) 60).1, mkPlayer "y" "Y" 50]
          [{ amount := 0, contributors := [] }]).2, p.id ∈ pot.contributors)) :=
  ⟨by decide,
   collectBets_spec [(betP (mkPlayer "x" "X" 100) 60).1, mkPlayer "y" "Y" 50]
     [{ amount := 0, contributors := [] }] (by decide)⟩

/-- A concrete two-player hand state at showdown: both players reached the
showdown un-folded, pending bets already collected into a single pot of 100
contributed by both. -/
def showdownState : GState :=
  { players := [
      { mkPlayer "p1" "P1" 500 with
          hand := [⟨Rank.A, Suit.S⟩, ⟨Rank.A, Suit.D⟩] },
      { mkPlayer "p2" "P2" 500 with
          hand := [⟨Rank.K, Suit.S⟩, ⟨Rank.Q, Suit.D⟩] }]
    handState := {
      phase := "river"
      communityCards := [⟨Rank.R2, Suit.C⟩, ⟨Rank.R7, Suit.D⟩, ⟨Rank.R9, Suit.H⟩]
      pot := 100
      currentBet := 0
      dealerIndex := 0
      smallBlindIndex := 0
      bigBlindIndex := 1
      currentPlayerIndex := 0
      winners := [] }
    pots := [{ amount := 100, contributors := ["p1", "p2"] }]
    deck := [] }

/-- C4 (failing input): running `endHand` settlement a second time on the
state left unchanged by the first run pays the winner the full pot again —
chips go 500/500 → 500/600 → 500/700 — because distribution never zeroes
`pot.amount`.  (Under the evaluator's scoring, player 2's K-high hand
outscores player 1's pair of aces, so player 2 is the winner here; the
double payment is independent of that.) -/
theorem endHand_double_pays :
    (endHandCore showdownState).players.map (fun p => p.chips) = [500, 600] ∧
    (endHandCore (endHandCore showdownState)).players.map (fun p => p.chips) =
      [500, 700] ∧
    ¬ ((endHandCore (endHandCore showdownState)).players.map (fun p => p.chips) =
        (endHandCore showdownState).players.map (fun p => p.chips)) := by decide

/-- C7: illegal and out-of-turn submissions by a human player are no-ops —
an action out of turn, a check below the street bet, a raise with
non-positive amount, a raise whose resulting total does not exceed the
street bet, a raise exceeding the stack, or an under-minimum raise that
does not commit the whole stack, all return the state unchanged (every
player field and every `HandState` field included), because each
corresponding guard in `handlePlayerAction` returns before any mutation. -/
theorem illegal_action_noop (gs : GState) (pid : String) (a : ActionS)
    (player cp : PlayerS)
    (hfind : gs.players.find? (fun p => p.id == pid) = some player)
    (hcp : (activeOf gs.players).get? gs.handState.currentPlayerIndex = some cp)
    (hhuman : player.isBot = false)
    (hill :
      cp.id ≠ pid ∨
      (a = ActionS.check ∧ player.currentBet < gs.handState.currentBet) ∨
      (∃ amt, a = ActionS.raise amt ∧ amt ≤ 0) ∨
      (∃ amt, a = ActionS.raise amt ∧
        player.currentBet + amt ≤ gs.handState.currentBet) ∨
      (∃ amt, a = ActionS.raise amt ∧ player.chips < amt) ∨
      (∃ amt, a = ActionS.raise amt ∧
        amt - (gs.handState.currentBet - player.currentBet) <
          (if gs.handState.phase == "preflop" then (20 : Int) else 10) ∧
        amt < player.chips)) :
    hpAction gs pid a = some gs := by
  unfold hpAction
  rw [hfind]
  dsimp only
  rw [hcp]
  dsimp only
  rcases hill with hturn | hrest
  · rw [if_pos hturn]
  by_cases hturn : cp.id ≠ pid
  · rw [if_pos hturn]
  rw [if_neg hturn]
  by_cases hacted : (player.hasActed && !player.isAllIn) = true
  · rw [if_pos hacted]
  rw [if_neg hacted]
  rcases hrest with ⟨hchk, hlt⟩ | ⟨amt, ha, hc⟩ | ⟨amt, ha, hc⟩ | ⟨amt, ha, hc⟩ |
    ⟨amt, ha, hc, hc2⟩
  · subst hchk
    dsimp only
    rw [if_pos hlt]
  · subst ha
    dsimp only
    rw [if_pos hc]
  · subst ha
    dsimp only
    by_cases h0 : amt ≤ 0
    · rw [if_pos h0]
    rw [if_neg h0]
    by_cases hmin :
        (amt - (gs.handState.currentBet - player.currentBet) <
            (if gs.handState.phase == "preflop" then (20 : Int) else 10) &&
          amt < player.chips) = true
    · rw [if_pos hmin, hhuman]
      simp
    · rw [if_neg hmin]
      rw [if_pos hc]
      rw [hhuman]
      simp
  · subst ha
    dsimp only
    by_cases h0 : amt ≤ 0
    · rw [if_pos h0]
    rw [if_neg h0]
    by_cases hmin :
        (amt - (gs.handState.currentBet - player.currentBet) <
            (if gs.handState.phase == "preflop" then (20 : Int) else 10) &&
          amt < player.chips) = true
    · rw [if_pos hmin, hhuman]
      simp
    · rw [if_neg hmin]
      by_cases htb : player.currentBet + amt ≤ gs.handState.currentBet
      · rw [if_pos htb, hhuman]
        simp
      · rw [if_neg htb]
        rw [if_pos (by omega : player.chips + player.currentBet <
          player.currentBet + amt)]
  · subst ha
    dsimp only
    by_cases h0 : amt ≤ 0
    · rw [if_pos h0]
    rw [if_neg h0]
    rw [if_pos (by
      simp only [Bool.and_eq_true, decide_eq_true_eq]
      exact ⟨hc, hc2⟩), hhuman]
    simp

def c7P1 : PlayerS := mkPlayer "q1" "Q1" 300

def c7P2 : PlayerS := mkPlayer "q2" "Q2" 300

def c7State : GState :=
  { players := [c7P1, c7P2]
    handState := {
      phase := "preflop"
      communityCards := []
      pot := 0
      currentBet := 0
      dealerIndex := 0
      smallBlindIndex := 0
      bigBlindIndex := 1
      currentPlayerIndex := 0
      winners := [] }
    pots := [{ amount := 0, contributors := [] }]
    deck := [] }

theorem illegal_action_noop_witness :
    (c7State.players.find? (fun p => p.id == "q2") = some c7P2 ∧
     (activeOf c7State.players).get? c7State.handState.currentPlayerIndex =
       some c7P1 ∧
     c7P2.isBot = false ∧ c7P1.id ≠ "q2") ∧
    hpAction c7State "q2" ActionS.fold = some c7State :=
  ⟨⟨by decide, by decide, by decide, by decide⟩,
   illegal_action_noop c7State "q2" ActionS.fold c7P2 c7P1 (by decide) (by decide)
     (by decide) (Or.inl (by decide))⟩

/-! ### Lemmas for chip conservation -/

theorem betP_cb (p : PlayerS) (a : Int) :
    (betP p a).1.chips + (betP p a).1.currentBet = p.chips + p.currentBet := by
  unfold betP
  dsimp only
  ring

theorem betP_wf (q : PlayerS) (amt : Int) (hc : 0 ≤ q.chips)
    (hb : 0 ≤ q.currentBet) (hamt : 0 ≤ amt) :
    0 ≤ (betP q amt).1.chips ∧ 0 ≤ (betP q amt).1.currentBet := by
  unfold betP
  dsimp only
  have h1 := min_le_right amt q.chips
  have h2 : (0 : Int) ≤ min amt q.chips := le_min hamt hc
  omega

theorem sumCB_cons (p : PlayerS) (l : List PlayerS) :
    sumCB (p :: l) = p.chips + p.currentBet + sumCB l := by
  simp [sumCB]

theorem sumCB_append (a b : List PlayerS) : sumCB (a ++ b) = sumCB a + sumCB b := by
  simp [sumCB]

theorem updateById_decomp :
    ∀ (ps : List PlayerS) (id : String) (f : PlayerS → PlayerS) (p₀ : PlayerS),
      ps.find? (fun p => p.id == id) = some p₀ →
      ∃ l1 l2, ps = l1 ++ p₀ :: l2 ∧ updateById ps id f = l1 ++ f p₀ :: l2 := by
  intro ps
  induction ps with
  | nil => intro id f p₀ h; simp at h
  | cons q rest ih =>
    intro id f p₀ h
    by_cases hq : q.id = id
    · have hqe : q = p₀ := by
        rw [List.find?_cons_of_pos _ (by simpa using hq)] at h
        exact Option.some.inj h
      subst hqe
      exact ⟨[], rest, by simp, by simp [updateById, hq]⟩
    · rw [List.find?_cons_of_neg _ (by simpa using hq)] at h
      obtain ⟨l1, l2, he, hu⟩ := ih id f p₀ h
      exact ⟨q :: l1, l2, by simp [he], by simp [updateById, hq, hu]⟩

theorem sumCB_updateById_found (ps : List PlayerS) (id : String)
    (f : PlayerS → PlayerS) (p₀ : PlayerS)
    (hfind : ps.find? (fun p => p.id == id) = some p₀)
    (hpres : (f p₀).chips + (f p₀).currentBet = p₀.chips + p₀.currentBet) :
    sumCB (updateById ps id f) = sumCB ps := by
  obtain ⟨l1, l2, he, hu⟩ := updateById_decomp ps id f p₀ hfind
  rw [hu, he, sumCB_append, sumCB_append, sumCB_cons, sumCB_cons, hpres]

theorem sumCB_updateById_pt (ps : List PlayerS) (id : String)
    (f : PlayerS → PlayerS)
    (h : ∀ p, (f p).chips + (f p).currentBet = p.chips + p.currentBet) :
    sumCB (updateById ps id f) = sumCB ps := by
  induction ps with
  | nil => rfl
  | cons q rest ih =>
    unfold updateById
    split
    · rw [sumCB_cons, sumCB_cons, h]
    · rw [sumCB_cons, sumCB_cons, ih]

theorem sumCB_map_pt (ps : List PlayerS) (f : PlayerS → PlayerS)
    (h : ∀ p, (f p).chips = p.chips ∧ (f p).currentBet = p.currentBet) :
    sumCB (ps.map f) = sumCB ps := by
  induction ps with
  | nil => rfl
  | cons q rest ih =>
    rw [List.map_cons, sumCB_cons, sumCB_cons, (h q).1, (h q).2, ih]

theorem mem_updateById :
    ∀ (ps : List PlayerS) (id : String) (f : PlayerS → PlayerS) (q : PlayerS),
      q ∈ updateById ps id f → q ∈ ps ∨ ∃ p ∈ ps, q = f p := by
  intro ps
  induction ps with
  | nil => intro id f q h; simp [updateById] at h
  | cons r rest ih =>
    intro id f q h
    unfold updateById at h
    by_cases hr : r.id = id
    · rw [if_pos hr] at h
      rcases List.mem_cons.mp h with h | h
      · exact Or.inr ⟨r, List.mem_cons_self _ _, h⟩
      · exact Or.inl (List.mem_cons.mpr (Or.inr h))
    · rw [if_neg hr] at h
      rcases List.mem_cons.mp h with h | h
      · exact Or.inl (List.mem_cons.mpr (Or.inl h))
      · rcases ih id f q h with h | ⟨p, hp, he⟩
        · exact Or.inl (List.mem_cons.mpr (Or.inr h))
        · exact Or.inr ⟨p, List.mem_cons.mpr (Or.inr hp), he⟩

theorem wf_updateById (ps : List PlayerS) (id : String) (f : PlayerS → PlayerS)
    (Q : PlayerS → Prop) (hw : ∀ p ∈ ps, Q p) (hf : ∀ p ∈ ps, Q (f p)) :
    ∀ q ∈ updateById ps id f, Q q := by
  intro q hq
  rcases mem_updateById ps id f q hq with h | ⟨p, hp, he⟩
  · exact hw q h
  · rw [he]
    exact hf p hp

theorem doCall_step (ps : List PlayerS) (hsCB : Int) (player : PlayerS)
    (hfind : ps.find? (fun p => p.id == player.id) = some player)
    (hw : ∀ p ∈ ps, 0 ≤ p.chips ∧ 0 ≤ p.currentBet) (hcb : 0 ≤ hsCB)
    (hplayer : 0 ≤ player.chips ∧ 0 ≤ player.currentBet) :
    sumCB (doCall ps hsCB player).1 = sumCB ps ∧
    (∀ p ∈ (doCall ps hsCB player).1, 0 ≤ p.chips ∧ 0 ≤ p.currentBet) := by
  unfold doCall
  dsimp only
  by_cases hgt : hsCB - player.currentBet > player.chips
  · rw [if_pos hgt]
    constructor
    · apply sumCB_updateById_found ps player.id _ player hfind
      have := betP_cb player player.chips
      dsimp only
      omega
    · apply wf_updateById _ _ _ _ hw
      intro p _
      have := betP_wf player player.chips hplayer.1 hplayer.2 hplayer.1
      dsimp only
      exact this
  · rw [if_neg hgt]
    have hle' : hsCB - player.currentBet ≤ player.chips := by omega
    have hmineq : min (hsCB - player.currentBet) player.chips =
        hsCB - player.currentBet := min_eq_left hle'
    constructor
    · apply sumCB_updateById_found ps player.id _ player hfind
      have := betP_cb player (hsCB - player.currentBet)
      dsimp only
      omega
    · apply wf_updateById _ _ _ _ hw
      intro p _
      unfold betP
      dsimp only
      rw [hmineq]
      constructor <;> omega

theorem chipTotal_finishAction (gs : GState) (ps' : List PlayerS)
    (hs' : HandStateS) (cid : String) :
    chipTotal (finishAction gs ps' hs' cid) = sumCB ps' + sumPots gs.pots := rfl

theorem wf_finishAction (gs : GState) (ps' : List PlayerS) (hs' : HandStateS)
    (cid : String) (h1 : ∀ p ∈ ps', 0 ≤ p.chips ∧ 0 ≤ p.currentBet)
    (h2 : 0 ≤ hs'.currentBet) : WFState (finishAction gs ps' hs' cid) :=
  ⟨h1, h2⟩

theorem hpAction_step (gs : GState) (pid : String) (a : ActionS) (gs' : GState)
    (h : hpAction gs pid a = some gs') (hw : WFState gs) :
    chipTotal gs' = chipTotal gs ∧ WFState gs' := by
  obtain ⟨hwp, hwcb⟩ := hw
  unfold hpAction at h
  cases hfind : gs.players.find? (fun p => p.id == pid) with
  | none =>
    rw [hfind] at h
    dsimp only at h
    rw [← Option.some.inj h]
    exact ⟨rfl, hwp, hwcb⟩
  | some player =>
    rw [hfind] at h
    dsimp only at h
    cases hcp : (activeOf gs.players).get? gs.handState.currentPlayerIndex with
    | none =>
      rw [hcp] at h
      dsimp only at h
      exact absurd h (by simp)
    | some cp =>
      rw [hcp] at h
      dsimp only at h
      have hpmem : player ∈ gs.players := List.mem_of_find?_eq_some hfind
      have hpid : player.id = pid := by simpa using List.find?_some hfind
      have hpw := hwp player hpmem
      have hfind' : gs.players.find? (fun p => p.id == player.id) = some player := by
        rw [hpid]
        exact hfind
      split at h
      · rw [← Option.some.inj h]
        exact ⟨rfl, hwp, hwcb⟩
      split at h
      · rw [← Option.some.inj h]
        exact ⟨rfl, hwp, hwcb⟩
      cases a with
      | fold =>
        dsimp only at h
        rw [← Option.some.inj h]
        refine ⟨?_, ?_⟩
        · rw [chipTotal_finishAction]
          unfold chipTotal
          exact congrArg (fun x => x + sumPots gs.pots)
            (sumCB_updateById_pt _ _ _ (fun p => rfl))
        · refine wf_finishAction _ _ _ _ ?_ hwcb
          exact wf_updateById _ _ _ _ hwp (fun p hp => hwp p hp)
      | check =>
        dsimp only at h
        split at h
        · rw [← Option.some.inj h]
          exact ⟨rfl, hwp, hwcb⟩
        · rw [← Option.some.inj h]
          refine ⟨?_, ?_⟩
          · rw [chipTotal_finishAction]
            unfold chipTotal
            exact congrArg (fun x => x + sumPots gs.pots)
              (sumCB_updateById_pt _ _ _ (fun p => rfl))
          · refine wf_finishAction _ _ _ _ ?_ hwcb
            exact wf_updateById _ _ _ _ hwp (fun p hp => hwp p hp)
      | call =>
        dsimp only at h
        rw [← Option.some.inj h]
        obtain ⟨hsum, hwf⟩ :=
          doCall_step gs.players gs.handState.currentBet player hfind' hwp hwcb hpw
        refine ⟨?_, ?_⟩
        · rw [chipTotal_finishAction]
          unfold chipTotal
          rw [hsum]
        · exact wf_finishAction _ _ _ _ hwf hwcb
      | raise amount =>
        dsimp only at h
        split at h
        · rw [← Option.some.inj h]
          exact ⟨rfl, hwp, hwcb⟩
        · next hamt =>
          have hamt' : 0 < amount := by omega
          set minR : Int :=
            (if (gs.handState.phase == "preflop") = true then (20 : Int) else 10)
            with hminR
          split at h
          · -- under-minimum raise
            split at h
            · -- bot: converted to a call
              rw [← Option.some.inj h]
              obtain ⟨hsum, hwf⟩ :=
                doCall_step gs.players gs.handState.currentBet player hfind' hwp
                  hwcb hpw
              refine ⟨?_, ?_⟩
              · rw [chipTotal_finishAction]
                unfold chipTotal
                rw [hsum]
              · exact wf_finishAction _ _ _ _ hwf hwcb
            · rw [← Option.some.inj h]
              exact ⟨rfl, hwp, hwcb⟩
          · split at h
            · -- raise not above the current bet
              split at h
              · rw [← Option.some.inj h]
                obtain ⟨hsum, hwf⟩ :=
                  doCall_step gs.players gs.handState.currentBet player hfind' hwp
                    hwcb hpw
                refine ⟨?_, ?_⟩
                · rw [chipTotal_finishAction]
                  unfold chipTotal
                  rw [hsum]
                · exact wf_finishAction _ _ _ _ hwf hwcb
              · rw [← Option.some.inj h]
                exact ⟨rfl, hwp, hwcb⟩
            · split at h
              · rw [← Option.some.inj h]
                exact ⟨rfl, hwp, hwcb⟩
              · -- successful raise
                rw [← Option.some.inj h]
                have hq1 := betP_wf player amount hpw.1 hpw.2 (le_of_lt hamt')
                refine ⟨?_, ?_⟩
                · rw [chipTotal_finishAction]
                  unfold chipTotal
                  refine congrArg (fun x => x + sumPots gs.pots) ?_
                  refine Eq.trans (sumCB_updateById_pt _ _ _ ?_)
                    (Eq.trans (sumCB_map_pt _ _ ?_)
                      (sumCB_updateById_found gs.players player.id _ player hfind' ?_))
                  · exact fun p => rfl
                  · intro p
                    constructor <;> (split <;> rfl)
                  · have := betP_cb player amount
                    omega
                · refine wf_finishAction _ _ _ _ ?_ hq1.2
                  have hwmid : ∀ p ∈ (updateById gs.players player.id
                      (fun _ => (betP player amount).1)), 0 ≤ p.chips ∧ 0 ≤ p.currentBet := by
                    refine wf_updateById _ _ _ _ hwp ?_
                    intro p _
                    exact hq1
                  refine wf_updateById _ _ _
                    (fun p => 0 ≤ p.chips ∧ 0 ≤ p.currentBet) ?_ ?_
                  · intro p hp
                    rcases List.mem_map.mp hp with ⟨q, hq, hqe⟩
                    have hqw := hwmid q hq
                    rw [← hqe]
                    split
                    · exact hqw
                    · exact hqw
                  · intro p hp
                    rcases List.mem_map.mp hp with ⟨q, hq, hqe⟩
                    have hqw := hwmid q hq
                    rw [← hqe]
                    split
                    · exact hqw
                    · exact hqw

theorem getD_mem_of_lt (l : List PlayerS) (n : Nat) (d : PlayerS)
    (h : n < l.length) : l.getD n d ∈ l := by
  rw [List.getD_eq_getElem?_getD, List.getElem?_eq_getElem h]
  exact List.getElem_mem h

theorem sumCB_map_mem (ps : List PlayerS) (f : PlayerS → PlayerS)
    (h : ∀ p ∈ ps, (f p).chips = p.chips ∧ (f p).currentBet = p.currentBet) :
    sumCB (ps.map f) = sumCB ps := by
  induction ps with
  | nil => rfl
  | cons q rest ih =>
    rw [List.map_cons, sumCB_cons, sumCB_cons,
      (h q (List.mem_cons_self _ _)).1, (h q (List.mem_cons_self _ _)).2,
      ih (fun p hp => h p (List.mem_cons.mpr (Or.inr hp)))]

theorem sumCB_map_setBet0 (ps : List PlayerS) :
    sumCB (ps.map (fun p => { p with currentBet := 0 })) + sumBets ps = sumCB ps := by
  induction ps with
  | nil => rfl
  | cons q rest ih =>
    rw [List.map_cons, sumCB_cons, sumCB_cons]
    simp only [sumBets, List.map_cons, List.sum_cons] at ih ⊢
    omega

theorem postBlinds_step (gs gs' : GState) (h : postBlinds gs = some gs')
    (hw : WFState gs) : chipTotal gs' = chipTotal gs ∧ WFState gs' := by
  obtain ⟨hwp, hwcb⟩ := hw
  unfold postBlinds at h
  dsimp only at h
  split at h
  · exact absurd h (by simp)
  · next hlen =>
    have hlenpos : 0 < (gs.players.filter (fun p => p.chips > 0)).length := by
      omega
    have hsbmem : (gs.players.filter (fun p => p.chips > 0)).getD
        ((((gs.handState.dealerIndex + 1) %
            (gs.players.filter (fun p => p.chips > 0)).length + 1) %
          (gs.players.filter (fun p => p.chips > 0)).length)) default ∈
        gs.players.filter (fun p => p.chips > 0) :=
      getD_mem_of_lt _ _ _ (Nat.mod_lt _ hlenpos)
    have hbbmem : (gs.players.filter (fun p => p.chips > 0)).getD
        (((((gs.handState.dealerIndex + 1) %
            (gs.players.filter (fun p => p.chips > 0)).length + 1) %
          (gs.players.filter (fun p => p.chips > 0)).length + 1) %
          (gs.players.filter (fun p => p.chips > 0)).length)) default ∈
        gs.players.filter (fun p => p.chips > 0) :=
      getD_mem_of_lt _ _ _ (Nat.mod_lt _ hlenpos)
    have hsbchips : (0 : Int) <
        ((gs.players.filter (fun p => p.chips > 0)).getD
          ((((gs.handState.dealerIndex + 1) %
              (gs.players.filter (fun p => p.chips > 0)).length + 1) %
            (gs.players.filter (fun p => p.chips > 0)).length)) default).chips := by
      have := (List.mem_filter.mp hsbmem).2
      simpa using this
    have hbbchips : (0 : Int) <
        ((gs.players.filter (fun p => p.chips > 0)).getD
          (((((gs.handState.dealerIndex + 1) %
              (gs.players.filter (fun p => p.chips > 0)).length + 1) %
            (gs.players.filter (fun p => p.chips > 0)).length + 1) %
            (gs.players.filter (fun p => p.chips > 0)).length)) default).chips := by
      have := (List.mem_filter.mp hbbmem).2
      simpa using this
    rw [← Option.some.inj h]
    constructor
    · unfold chipTotal
      dsimp only
      refine congrArg (fun x => x + sumPots gs.pots) ?_
      refine Eq.trans (sumCB_updateById_pt _ _ _ (fun q => betP_cb q _))
        (sumCB_updateById_pt _ _ _ (fun q => betP_cb q _))
    · refine ⟨?_, ?_⟩
      · dsimp only
        refine wf_updateById _ _ _ _ ?_ ?_
        · refine wf_updateById _ _ _ _ hwp ?_
          intro p hp
          exact betP_wf p _ (hwp p hp).1 (hwp p hp).2
            (le_min (by norm_num) (le_of_lt hsbchips))
        · intro p hp
          have hpw' : 0 ≤ p.chips ∧ 0 ≤ p.currentBet := by
            refine wf_updateById _ _ _ _ hwp ?_ p hp
            intro q hq
            exact betP_wf q _ (hwp q hq).1 (hwp q hq).2
              (le_min (by norm_num) (le_of_lt hsbchips))
          exact betP_wf p _ hpw'.1 hpw'.2
            (le_min (by norm_num) (le_of_lt hbbchips))
      · dsimp only
        exact le_min (by norm_num) (le_of_lt hbbchips)

theorem streetAdvance_step (gs gs' : GState) (h : streetAdvance gs = some gs')
    (hw : WFState gs) : chipTotal gs' = chipTotal gs ∧ WFState gs' := by
  obtain ⟨hwp, hwcb⟩ := hw
  unfold streetAdvance at h
  dsimp only at h
  split at h
  · exact absurd h (by simp)
  split at h
  · split at h
    · exact absurd h (by simp)
    · obtain ⟨hz, hmap, hsump, _⟩ :=
        collectBets_spec gs.players gs.pots (fun p hp => (hwp p hp).2)
      rw [← Option.some.inj h]
      constructor
      · unfold chipTotal
        dsimp only
        have h2 : sumCB ((collectBets gs.players gs.pots).1.map (fun q =>
            if (((activeOf gs.players).map (fun p => p.id)).contains q.id) = true
            then resetForNewBettingRound q else q)) =
            sumCB (collectBets gs.players gs.pots).1 := by
          refine sumCB_map_mem _ _ ?_
          intro p hp
          split
          · exact ⟨rfl, by rw [hz p hp]; rfl⟩
          · exact ⟨rfl, rfl⟩
        rw [h2, hmap, hsump]
        have h3 := sumCB_map_setBet0 gs.players
        omega
      · refine ⟨?_, ?_⟩
        · dsimp only
          intro p hp
          rcases List.mem_map.mp hp with ⟨q, hq, hqe⟩
          have hqw : 0 ≤ q.chips ∧ 0 ≤ q.currentBet := by
            rw [hmap] at hq
            rcases List.mem_map.mp hq with ⟨r, hr, hre⟩
            rw [← hre]
            exact ⟨(hwp r hr).1, le_refl 0⟩
          rw [← hqe]
          split
          · exact ⟨hqw.1, le_refl 0⟩
          · exact hqw
        · dsimp only
          omega
  · rw [← Option.some.inj h]
    exact ⟨rfl, hwp, hwcb⟩

theorem step_conserves (s s' : GState) (hstep : EngineStep s s') (hw : WFState s) :
    chipTotal s' = chipTotal s ∧ WFState s' := by
  cases hstep with
  | action w x y z => exact hpAction_step _ _ _ _ z hw
  | blinds w x => exact postBlinds_step _ _ x hw
  | street w x => exact streetAdvance_step _ _ x hw

/-- C1: chip conservation — along every sequence of engine steps
(fold/check/call/raise actions via `handlePlayerAction`, blind posting, and
street transitions with bet collection) starting from a well-formed state,
the quantity `sum(player.chips) + sum(player.currentBet) + sum(pot.amount)`
is unchanged, and hence always equals the total that existed when the hand
started. -/
theorem chip_conservation (s₀ s : GState) (hwf : WFState s₀)
    (h : Relation.ReflTransGen EngineStep s₀ s) :
    chipTotal s = chipTotal s₀ := by
  suffices hs : chipTotal s = chipTotal s₀ ∧ WFState s from hs.1
  induction h with
  | refl => exact ⟨rfl, hwf⟩
  | tail hab hbc ih =>
    obtain ⟨hc, hwb⟩ := ih
    obtain ⟨he, hw'⟩ := step_conserves _ _ hbc hwb
    exact ⟨he.trans hc, hw'⟩

def c1State : GState :=
  { players := [mkPlayer "r1" "R1" 400, mkPlayer "r2" "R2" 600]
    handState := {
      phase := "preflop"
      communityCards := []
      pot := 0
      currentBet := 0
      dealerIndex := 0
      smallBlindIndex := 0
      bigBlindIndex := 1
      currentPlayerIndex := 0
      winners := [] }
    pots := [{ amount := 0, contributors := [] }]
    deck := [] }

def c1Next : GState := (hpAction c1State "r1" ActionS.fold).getD c1State

theorem chip_conservation_witness :
    WFState c1State ∧ chipTotal c1Next = chipTotal c1State :=
  ⟨by decide,
   chip_conservation c1State c1Next (by decide)
     (Relation.ReflTransGen.single
       (EngineStep.action c1State "r1" ActionS.fold c1Next (by decide)))⟩

/-! ### Lemmas for permutation invariance of the evaluator -/

theorem insertionSort_ge_perm_eq (l₁ l₂ : List Nat) (h : List.Perm l₁ l₂) :
    l₁.insertionSort (· ≥ ·) = l₂.insertionSort (· ≥ ·) := by
  refine List.eq_of_perm_of_sorted ?_ (List.sorted_insertionSort _ _)
    (List.sorted_insertionSort _ _)
  exact (List.perm_insertionSort _ _).trans (h.trans (List.perm_insertionSort _ _).symm)

theorem sortedValuesOf_perm (c₁ c₂ : List Card) (h : List.Perm c₁ c₂) :
    sortedValuesOf c₁ = sortedValuesOf c₂ := by
  unfold sortedValuesOf
  apply insertionSort_ge_perm_eq
  apply List.Perm.map
  apply List.Perm.map
  exact (List.perm_insertionSort _ _).trans (h.trans (List.perm_insertionSort _ _).symm)

theorem all_eq_head_iff (l : List Suit) :
    (l.all (fun s => s == l.headD Suit.S)) = true ↔ ∀ x ∈ l, ∀ y ∈ l, x = y := by
  cases l with
  | nil => simp
  | cons a t =>
    simp only [List.all_eq_true, List.headD_cons, beq_iff_eq]
    constructor
    · intro hall x hx y hy
      rw [hall x hx, hall y hy]
    · intro hpair x hx
      exact hpair x hx a (List.mem_cons_self _ _)

theorem flushOf_perm (c₁ c₂ : List Card) (h : List.Perm c₁ c₂) :
    flushOf c₁ = flushOf c₂ := by
  unfold flushOf
  dsimp only
  have hperm : List.Perm ((sortedByRank c₁).map (fun c => c.suit))
      ((sortedByRank c₂).map (fun c => c.suit)) := by
    apply List.Perm.map
    exact (List.perm_insertionSort _ _).trans (h.trans (List.perm_insertionSort _ _).symm)
  have h1 := all_eq_head_iff ((sortedByRank c₁).map (fun c => c.suit))
  have h2 := all_eq_head_iff ((sortedByRank c₂).map (fun c => c.suit))
  have hiff :
      (∀ x ∈ (sortedByRank c₁).map (fun c => c.suit),
        ∀ y ∈ (sortedByRank c₁).map (fun c => c.suit), x = y) ↔
      (∀ x ∈ (sortedByRank c₂).map (fun c => c.suit),
        ∀ y ∈ (sortedByRank c₂).map (fun c => c.suit), x = y) := by
    constructor
    · intro hp x hx y hy
      exact hp x (hperm.mem_iff.mpr hx) y (hperm.mem_iff.mpr hy)
    · intro hp x hx y hy
      exact hp x (hperm.mem_iff.mp hx) y (hperm.mem_iff.mp hy)
  exact Bool.eq_iff_iff.mpr (h1.trans (hiff.trans h2.symm))

theorem evaluateFiveCards_perm_score (c₁ c₂ : List Card) (h : List.Perm c₁ c₂) :
    (evaluateFiveCards c₁).score = (evaluateFiveCards c₂).score := by
  unfold evaluateFiveCards
  dsimp only
  rw [sortedValuesOf_perm c₁ c₂ h, flushOf_perm c₁ c₂ h]

/-- The evaluator's score as a function of the multiset of the five cards
(well defined by `evaluateFiveCards_perm_score`). -/
def scoreMul (m : Multiset Card) : Nat :=
  Quot.liftOn m (fun l => (evaluateFiveCards l).score)
    (fun a b hab => evaluateFiveCards_perm_score a b hab)

theorem getCombinations_perm (arr : List Card) :
    ∀ k, 1 ≤ k → List.Perm (getCombinations arr k) (List.sublistsLen k arr) := by
  induction arr with
  | nil =>
    intro k hk
    match k, hk with
    | 1, _ =>
      simp [getCombinations, List.sublistsLen_one]
    | (n + 2), _ =>
      simp [getCombinations, List.sublistsLen_succ_nil]
  | cons x xs ih =>
    intro k hk
    match k, hk with
    | 1, _ =>
      rw [List.sublistsLen_one]
      simp only [getCombinations]
      exact ((List.reverse_perm (x :: xs)).symm.map (fun y => [y])).symm.symm
    | (n + 2), _ =>
      simp only [getCombinations]
      by_cases hlen : ((x :: xs).length == n + 2) = true
      · rw [if_pos hlen]
        have hl : (x :: xs).length = n + 2 := by simpa using hlen
        rw [← hl, List.sublistsLen_length]
      · rw [if_neg hlen]
        rw [List.sublistsLen_succ_cons]
        have p1 : List.Perm ((getCombinations xs (n + 2 - 1)).map (fun combo => x :: combo))
            ((List.sublistsLen (n + 1) xs).map (fun combo => x :: combo)) := by
          have := ih (n + 1) (by omega)
          exact this.map _
        have p2 := ih (n + 2) (by omega)
        refine (List.Perm.append p1 p2).trans ?_
        exact List.perm_append_comm

theorem bestFold_snd (combos : List (List Card)) :
    ∀ acc : Option HandEval × Nat,
      (combos.foldl (fun acc combo =>
        if (evaluateFiveCards combo).score > acc.2 then
          (some (evaluateFiveCards combo), (evaluateFiveCards combo).score)
        else acc) acc).2 =
      combos.foldl (fun m combo => Nat.max m (evaluateFiveCards combo).score)
        acc.2 := by
  induction combos with
  | nil => intro acc; rfl
  | cons c rest ih =>
    intro acc
    simp only [List.foldl_cons]
    rw [ih]
    congr 1
    by_cases hgt : (evaluateFiveCards c).score > acc.2
    · rw [if_pos hgt]
      dsimp only
      exact (Nat.max_eq_right (le_of_lt hgt)).symm
    · rw [if_neg hgt]
      exact (Nat.max_eq_left (by omega)).symm

theorem bestFold_fst (combos : List (List Card)) :
    ∀ acc : Option HandEval × Nat,
      acc.1.map (fun e => e.score) = (if acc.2 = 0 then none else some acc.2) →
      ((combos.foldl (fun acc combo =>
          if (evaluateFiveCards combo).score > acc.2 then
            (some (evaluateFiveCards combo), (evaluateFiveCards combo).score)
          else acc) acc).1.map (fun e => e.score) =
        (if (combos.foldl (fun acc combo =>
            if (evaluateFiveCards combo).score > acc.2 then
              (some (evaluateFiveCards combo), (evaluateFiveCards combo).score)
            else acc) acc).2 = 0 then none
         else some (combos.foldl (fun acc combo =>
            if (evaluateFiveCards combo).score > acc.2 then
              (some (evaluateFiveCards combo), (evaluateFiveCards combo).score)
            else acc) acc).2)) := by
  induction combos with
  | nil => intro acc h; exact h
  | cons c rest ih =>
    intro acc h
    simp only [List.foldl_cons]
    apply ih
    by_cases hgt : (evaluateFiveCards c).score > acc.2
    · rw [if_pos hgt]
      dsimp only
      rw [if_neg (by omega)]
      rfl
    · rw [if_neg hgt]
      exact h

theorem combos_scores_perm (l l' : List Card) (_h5 : 5 ≤ l.length)
    (hp : List.Perm l l') :
    List.Perm ((getCombinations l 5).map (fun c => (evaluateFiveCards c).score))
      ((getCombinations l' 5).map (fun c => (evaluateFiveCards c).score)) := by
  have e1 : ∀ (cs : List (List Card)),
      cs.map (fun c => (evaluateFiveCards c).score) =
        (cs.map (fun c => Multiset.ofList c)).map scoreMul := by
    intro cs
    rw [List.map_map]
    rfl
  rw [e1, e1]
  apply List.Perm.map
  have g1 := (getCombinations_perm l 5 (by omega)).map
    (fun c => Multiset.ofList c)
  have g2 := (getCombinations_perm l' 5 (by omega)).map
    (fun c => Multiset.ofList c)
  have hmid : List.Perm ((l.sublistsLen 5).map (fun c => Multiset.ofList c))
      ((l'.sublistsLen 5).map (fun c => Multiset.ofList c)) := by
    have hcoe : Multiset.ofList l = Multiset.ofList l' :=
      Multiset.coe_eq_coe.mpr hp
    have h1 := Multiset.powersetCard_coe 5 l
    have h2 := Multiset.powersetCard_coe 5 l'
    rw [show (l : Multiset Card) = Multiset.ofList l from rfl, hcoe] at h1
    rw [show (l' : Multiset Card) = Multiset.ofList l' from rfl] at h2
    exact Multiset.coe_eq_coe.mp (h1.symm.trans h2)
  exact g1.trans (hmid.trans g2.symm)

/-- C10: the evaluation score is order-insensitive — for any list of 5 to 7
cards and any permutation of it, `evaluateHand` returns the same score (the
score depends only on the multiset of cards supplied). -/
theorem evaluateHand_perm (l l' : List Card) (h5 : 5 ≤ l.length)
    (h7 : l.length ≤ 7) (hp : List.Perm l l') :
    (evaluateHand l).map (fun e => e.score) =
      (evaluateHand l').map (fun e => e.score) := by
  have hlen : l.length = l'.length := hp.length_eq
  unfold evaluateHand
  rw [if_neg (by omega), if_neg (by omega : ¬ l'.length < 5)]
  dsimp only
  rw [bestFold_fst (getCombinations l 5) (none, 0) (by simp),
    bestFold_fst (getCombinations l' 5) (none, 0) (by simp)]
  rw [bestFold_snd (getCombinations l 5) (none, 0),
    bestFold_snd (getCombinations l' 5) (none, 0)]
  dsimp only
  have hF : (getCombinations l 5).foldl
      (fun m combo => Nat.max m (evaluateFiveCards combo).score) (0 : Nat) =
      (getCombinations l' 5).foldl
      (fun m combo => Nat.max m (evaluateFiveCards combo).score) (0 : Nat) := by
    rw [← List.foldl_map (fun c => (evaluateFiveCards c).score) Nat.max,
      ← List.foldl_map (fun c => (evaluateFiveCards c).score) Nat.max]
    exact (combos_scores_perm l l' h5 hp).foldl_eq 0
  rw [hF]

theorem evaluateHand_perm_witness :
    5 ≤ ([⟨Rank.A, Suit.C⟩, ⟨Rank.R2, Suit.D⟩, ⟨Rank.R3, Suit.H⟩,
          ⟨Rank.R4, Suit.S⟩, ⟨Rank.R5, Suit.C⟩] : List Card).length ∧
    ([⟨Rank.A, Suit.C⟩, ⟨Rank.R2, Suit.D⟩, ⟨Rank.R3, Suit.H⟩,
      ⟨Rank.R4, Suit.S⟩, ⟨Rank.R5, Suit.C⟩] : List Card).length ≤ 7 ∧
    List.Perm
      [⟨Rank.A, Suit.C⟩, ⟨Rank.R2, Suit.D⟩, ⟨Rank.R3, Suit.H⟩,
       ⟨Rank.R4, Suit.S⟩, ⟨Rank.R5, Suit.C⟩]
      ([⟨Rank.R5, Suit.C⟩, ⟨Rank.R4, Suit.S⟩, ⟨Rank.R3, Suit.H⟩,
        ⟨Rank.R2, Suit.D⟩, ⟨Rank.A, Suit.C⟩] : List Card) ∧
    (evaluateHand
      [⟨Rank.A, Suit.C⟩, ⟨Rank.R2, Suit.D⟩, ⟨Rank.R3, Suit.H⟩,
       ⟨Rank.R4, Suit.S⟩, ⟨Rank.R5, Suit.C⟩]).map (fun e => e.score) =
    (evaluateHand
      [⟨Rank.R5, Suit.C⟩, ⟨Rank.R4, Suit.S⟩, ⟨Rank.R3, Suit.H⟩,
       ⟨Rank.R2, Suit.D⟩, ⟨Rank.A, Suit.C⟩]).map (fun e => e.score) :=
  ⟨by decide, by decide, by decide,
   evaluateHand_perm _ _ (by decide) (by decide) (by decide)⟩
